import Mathlib

/-!
Verification development for the `kvs` log-structured key-value store
(`src/engine/kv_store.rs`, `src/net/server.rs`, `src/net/mod.rs`).

The storage engine `KvStoreInner` is shallowly embedded as a pure state
machine.  File handles (`BufReader`/`BufWriter`) are replaced by the byte
contents of the files they address, since every read seeks explicitly and
every write seeks to the end and flushes; reader/writer cursor positions are
therefore semantically irrelevant.  Bytes are modelled as `List Char`.

The external crate `serde_json` is modelled by a concrete
serializer/deserializer pair for the two-variant `Cmd` enum, reproducing the
exact byte format `serde_json::to_writer` emits for
`enum Cmd { Set(String, String), Rm(String) }`
(externally tagged JSON with no interior whitespace), with string escaping
for `"` and `\`; escapes of ASCII control characters are elided from the
model.  `serde_json::from_reader` is modelled by `decodeFull` (one value,
then end of input); the `StreamDeserializer` used by recovery is modelled by
`replayFile`, which reports the byte offset after each streamed value and
fails on a trailing incomplete or invalid value, exactly as
`StreamDeserializer::next` yields `Some(Err(_))` there.

A Rust `panic!` (in particular an out-of-bounds `Vec` index) is modelled by
the `OpRes.panic` / `ReadRes.panic` outcome, which is absorbing: it carries
no usable state, matching the unwinding (and mutex poisoning) in the source.
Mutations performed before an early `?`-return are retained in the state
carried by the `err` outcome, matching `&mut self` semantics.
-/

set_option maxRecDepth 10000

namespace Kvs

/-! ## Commands and their wire format (model of serde_json for `Cmd`) -/

/-- The persisted command record: `Cmd::Set(key, value)` or `Cmd::Rm(key)`. -/
inductive Cmd where
  | Set (k v : String)
  | Rm (k : String)
deriving DecidableEq

/-- Key of a command record (the match in `import_next_log`). -/
def Cmd.key : Cmd → String
  | .Set k _ => k
  | .Rm k => k

/-- JSON string escaping as serde_json performs it for `"` and `\`. -/
def escape : List Char → List Char
  | [] => []
  | c :: r => if c = '"' ∨ c = '\\' then '\\' :: c :: escape r else c :: escape r

/-- A JSON string literal: opening quote, escaped body, closing quote. -/
def qstr (s : String) : List Char := '"' :: (escape s.data ++ ['"'])

/-- Leading bytes of the serialization of a `Cmd::Set`. -/
def hdrSet : List Char := ['\x7b', '"', 'S', 'e', 't', '"', ':', '[']

/-- Leading bytes of the serialization of a `Cmd::Rm`. -/
def hdrRm : List Char := ['\x7b', '"', 'R', 'm', '"', ':']

/-- Byte serialization of a command, as `serde_json::to_writer` emits it. -/
def encode : Cmd → List Char
  | .Set k v => hdrSet ++ qstr k ++ ([','] ++ qstr v ++ [']', '\x7d'])
  | .Rm k => hdrRm ++ qstr k ++ ['\x7d']

/-- Consume an expected literal sequence of bytes, returning the rest. -/
def expectPfx : List Char → List Char → Option (List Char)
  | [], l => some l
  | _ :: _, [] => none
  | p :: ps, c :: cs => if c = p then expectPfx ps cs else none

/-- Read a JSON string body up to and including the closing quote,
undoing the escaping of `escape`. -/
def parseStr : List Char → Option (List Char × List Char)
  | [] => none
  | c :: r =>
    if c = '"' then some ([], r)
    else if c = '\\' then
      match r with
      | [] => none
      | d :: r' =>
        if d = '"' ∨ d = '\\' then (parseStr r').map (fun p => (d :: p.1, p.2)) else none
    else (parseStr r).map (fun p => (c :: p.1, p.2))

/-- Read a complete JSON string literal (opening quote included). -/
def parseQ : List Char → Option (String × List Char)
  | '"' :: r => (parseStr r).map (fun p => (⟨p.1⟩, p.2))
  | _ => none

/-- Read one serialized `Cmd` value from the head of the input, returning
the remaining bytes; `none` models a deserialization error, including the
end-of-input-while-parsing case of a truncated trailing value. -/
def parseOne (l : List Char) : Option (Cmd × List Char) :=
  match expectPfx hdrSet l with
  | some r =>
    match parseQ r with
    | none => none
    | some (k, r1) =>
      match expectPfx [','] r1 with
      | none => none
      | some r2 =>
        match parseQ r2 with
        | none => none
        | some (v, r3) =>
          match expectPfx [']', '\x7d'] r3 with
          | none => none
          | some r4 => some (Cmd.Set k v, r4)
  | none =>
    match expectPfx hdrRm l with
    | none => none
    | some r =>
      match parseQ r with
      | none => none
      | some (k, r1) =>
        match expectPfx ['\x7d'] r1 with
        | none => none
        | some r2 => some (Cmd.Rm k, r2)

/-- Model of `serde_json::from_reader` applied to a `take(len)` of a file:
exactly one value that ends exactly at the end of the slice. -/
def decodeFull (l : List Char) : Option Cmd :=
  match parseOne l with
  | some (c, []) => some c
  | _ => none

/-- Streaming deserialization with byte offsets, fuelled by the input length
(a value always consumes at least one byte).  Returns, in file order, each
record together with its byte offset and byte length, or an error if the
stream ends in an incomplete or invalid value.  Models the
`serde_json::Deserializer::into_iter::<Cmd>()` loop of `import_next_log`. -/
def replayAux : Nat → List Char → Nat → List (Cmd × Nat × Nat) →
    Except Unit (List (Cmd × Nat × Nat))
  | _, [], _, acc => .ok acc.reverse
  | 0, _ :: _, _, _ => .error ()
  | Nat.succ fuel, c :: r, pos, acc =>
    match parseOne (c :: r) with
    | none => .error ()
    | some (cmd, rest) =>
      replayAux fuel rest (pos + ((c :: r).length - rest.length))
        ((cmd, pos, (c :: r).length - rest.length) :: acc)

/-- Stream all records of one log file from offset 0 (see `replayAux`). -/
def replayFile (f : List Char) : Except Unit (List (Cmd × Nat × Nat)) :=
  replayAux f.length f 0 []

/-! ## The in-memory index (model of `BTreeMap<String, LogIndex>`)

The map is represented as an association list with at most one entry per
key; representation order is irrelevant to `find?`/`insert`, and the sorted
iteration order of the `BTreeMap` is recovered explicitly by `sortByKey`
where the source iterates (`minor_compact`). -/

/-- Location of one record: which file, byte offset, byte length. -/
structure LogIndex where
  file_index : Nat
  offset : Nat
  len : Nat
deriving DecidableEq

/-- Association-list model of the `BTreeMap` index. -/
abbrev KeyMap := List (String × LogIndex)

/-- First binding for a key, if any (`BTreeMap::get`). -/
def KeyMap.find? : KeyMap → String → Option LogIndex
  | [], _ => none
  | (k', v') :: r, k => if k' = k then some v' else KeyMap.find? r k

/-- Insert with overwrite (`BTreeMap::insert`). -/
def KeyMap.insertOv : KeyMap → String → LogIndex → KeyMap
  | [], k, v => [(k, v)]
  | (k', v') :: r, k, v =>
    if k' = k then (k, v) :: r else (k', v') :: KeyMap.insertOv r k v

/-- Insert only when absent (`BTreeMap::entry(..).or_insert(..)`). -/
def KeyMap.orInsert (m : KeyMap) (k : String) (v : LogIndex) : KeyMap :=
  if (m.find? k).isSome then m else m.insertOv k v

/-- Byte-wise (= codepoint-wise) comparison of characters, the order
`BTreeMap<String, _>` iterates keys in. -/
def charLtB (c d : Char) : Bool := c.toNat < d.toNat

/-- Lexicographic order on byte strings (Rust `String` `Ord`). -/
def listLeB : List Char → List Char → Bool
  | [], _ => true
  | _ :: _, [] => false
  | c :: cs, d :: ds =>
    if charLtB c d then true else if charLtB d c then false else listLeB cs ds

/-- Key order used by the `BTreeMap` iteration in `minor_compact`. -/
def strLeB (a b : String) : Bool := listLeB a.data b.data

/-- Insert an entry into a key-sorted entry list. -/
def insSorted (p : String × LogIndex) : List (String × LogIndex) → List (String × LogIndex)
  | [] => [p]
  | q :: qs => if strLeB p.1 q.1 then p :: q :: qs else q :: insSorted p qs

/-- Ascending-key iteration order of the `BTreeMap` (insertion sort). -/
def sortByKey (l : List (String × LogIndex)) : List (String × LogIndex) :=
  l.foldr insSorted []

/-! ## The engine state and operations (model of `KvStoreInner`) -/

/-- Compaction trigger: redundant records in the active file (`10_000`). -/
def COMPACTION_THRESHOLD : Nat := 10000

/-- Compaction rollover segment size (`1_048_576`). -/
def FILE_SIZE_LIMIT : Nat := 1048576

/-- State of `KvStoreInner`: the index, the lazy-recovery cursor, the byte
contents of the active file (`wal_active`) and of the read-only log files
(`wal_#####.log`, in file-name order), and the redundancy counter.
The `path` field and the file handles of the source are not represented:
files are their contents. -/
structure KvStoreInner where
  key_index : KeyMap
  index_scanned : Nat
  active : List Char
  wal_logs : List (List Char)
  active_redundant : Nat
deriving DecidableEq

/-- Error taxonomy of `KvsError` restricted to the variants the engine
model can produce. -/
inductive KvsError where
  | SerdeJson
  | KeyNotFound
deriving DecidableEq

/-- Outcome of a fallible engine operation: `Ok` with the mutated state,
`Err` with the mutated state (mutations before an early `?`-return are
kept), or a Rust panic (absorbing, no state). -/
inductive OpRes (α : Type) where
  | ok (a : α) (s : KvStoreInner)
  | err (e : KvsError) (s : KvStoreInner)
  | panic
deriving DecidableEq

/-- Outcome of `read_from_log`, which mutates no modelled state. -/
inductive ReadRes where
  | ok (c : Cmd)
  | err (e : KvsError)
  | panic
deriving DecidableEq

/-- `KvStoreInner::read_from_log`.  Faithful to the source: when the
location does not name the active file, the file actually read is
`wal_logs[index_scanned]` — not `wal_logs[file_index]` — and an
out-of-bounds index panics.  A seek past end-of-file followed by
`take(len)` yields short (or no) bytes and hence a decode error, which
`(f.drop offset).take len` reproduces. -/
def KvStoreInner.read_from_log (s : KvStoreInner) (li : LogIndex) : ReadRes :=
  let source? : Option (List Char) :=
    if li.file_index = s.wal_logs.length then some s.active
    else s.wal_logs.get? s.index_scanned
  match source? with
  | none => .panic
  | some f =>
    match decodeFull ((f.drop li.offset).take li.len) with
    | some c => .ok c
    | none => .err .SerdeJson

/-- `KvStoreInner::import_next_log`: decrement the lazy cursor, stream the
designated file (`wal_active` when the cursor equals `wal_logs.len()`,
else `wal_logs[cursor]`), build a per-file map keeping the last record of
each key, and merge it into the index without overwriting existing
entries.  A stream error is propagated after the cursor decrement. -/
def KvStoreInner.import_next_log (s : KvStoreInner) : OpRes Unit :=
  if s.index_scanned = 0 then .ok () s
  else
    let i := s.index_scanned - 1
    let s' : KvStoreInner := { s with index_scanned := i }
    let file? : Option (List Char) :=
      if i = s'.wal_logs.length then some s'.active else s'.wal_logs.get? i
    match file? with
    | none => .panic
    | some f =>
      match replayFile f with
      | .error _ => .err .SerdeJson s'
      | .ok recs =>
        let localIdx : KeyMap :=
          recs.foldl (fun m r => m.insertOv r.1.key ⟨i, r.2.1, r.2.2⟩) []
        .ok () { s' with
          key_index := localIdx.foldl (fun acc p => acc.orInsert p.1 p.2) s'.key_index }

/-- Body of `minor_compact`'s loop over the (key-ascending) snapshot of the
index: entries located in the previous active file are re-read through
`read_from_log` and appended to the new active file, rolling it over into a
fresh `wal_#####.log` (pushed onto `wal_logs`) whenever it would reach
`FILE_SIZE_LIMIT`.  Pushed segments persist even when a later read fails. -/
def KvStoreInner.compactLoop (prev : Nat) :
    List (String × LogIndex) → KvStoreInner → Nat → Nat → List Char →
    List (String × LogIndex) → OpRes (List (String × LogIndex) × List Char)
  | [], s, _, _, newActive, done => .ok (done.reverse, newActive) s
  | (k, li) :: rest, s, cur, off, newActive, done =>
    if li.file_index = prev then
      let roll : Bool := decide (FILE_SIZE_LIMIT ≤ off + li.len)
      let s' : KvStoreInner :=
        if roll then { s with wal_logs := s.wal_logs ++ [newActive] } else s
      let cur' : Nat := if roll then cur + 1 else cur
      let off' : Nat := if roll then 0 else off
      let newActive' : List Char := if roll then [] else newActive
      match s'.read_from_log li with
      | .panic => .panic
      | .err e => .err e s'
      | .ok cmd =>
        KvStoreInner.compactLoop prev rest s' cur' (off' + li.len)
          (newActive' ++ encode cmd) ((k, ⟨cur', off', li.len⟩) :: done)
    else
      KvStoreInner.compactLoop prev rest s cur off newActive ((k, li) :: done)

/-- `KvStoreInner::minor_compact`: snapshot the index, rewrite the live
records of the previous active file in ascending key order (see
`compactLoop`), atomically replace the active file with the final segment,
publish the updated index and reset the redundancy counter.  On a loop
error the pushed segments remain but the index and active file are left
unchanged (the partially written `new_active` is never renamed). -/
def KvStoreInner.minor_compact (s : KvStoreInner) : OpRes Unit :=
  let prev := s.wal_logs.length
  match KvStoreInner.compactLoop prev (sortByKey s.key_index) s prev 0 [] [] with
  | .panic => .panic
  | .err e s' => .err e s'
  | .ok (newIdx, newActive) s' =>
    .ok () { s' with active := newActive, key_index := newIdx, active_redundant := 0 }

/-- `KvStoreInner::append_log`: append the serialized record to the active
file, insert its location (in the file numbered `wal_logs.len()`) into the
index, bump the redundancy counter when an entry in the active file was
overwritten and compact past `COMPACTION_THRESHOLD`, then compact again if
the record's start offset exceeded `10 * FILE_SIZE_LIMIT`. -/
def KvStoreInner.append_log (s : KvStoreInner) (cmd : Cmd) (key : String) : OpRes Unit :=
  let offset := s.active.length
  let record := encode cmd
  let s1 : KvStoreInner := { s with active := s.active ++ record }
  let li : LogIndex := ⟨s1.wal_logs.length, offset, record.length⟩
  let old? := s1.key_index.find? key
  let s2 : KvStoreInner := { s1 with key_index := s1.key_index.insertOv key li }
  let afterRedundant : OpRes Unit :=
    match old? with
    | some old_li =>
      if old_li.file_index = s2.wal_logs.length then
        let s3 : KvStoreInner := { s2 with active_redundant := s2.active_redundant + 1 }
        if COMPACTION_THRESHOLD < s3.active_redundant then s3.minor_compact else .ok () s3
      else .ok () s2
    | none => .ok () s2
  match afterRedundant with
  | .panic => .panic
  | .err e s4 => .err e s4
  | .ok _ s4 =>
    if 10 * FILE_SIZE_LIMIT < offset then s4.minor_compact else .ok () s4

/-- `KvStoreInner::set`. -/
def KvStoreInner.set (s : KvStoreInner) (key value : String) : OpRes Unit :=
  s.append_log (.Set key value) key

/-- Loop of `KvStoreInner::get`'s miss path, fuelled by the initial value
of `index_scanned` (each iteration decrements it by exactly one). -/
def KvStoreInner.getAux : Nat → KvStoreInner → String → OpRes (Option String)
  | 0, s, _ => .ok none s
  | Nat.succ fuel, s, key =>
    if s.index_scanned = 0 then .ok none s
    else
      match s.import_next_log with
      | .panic => .panic
      | .err e s' => .err e s'
      | .ok _ s' =>
        match s'.key_index.find? key with
        | some li =>
          match s'.read_from_log li with
          | .ok (Cmd.Set _ val) => .ok (some val) s'
          | .ok (Cmd.Rm _) => .ok none s'
          | .err e => .err e s'
          | .panic => .panic
        | none => KvStoreInner.getAux fuel s' key


/-- `KvStoreInner::get`: on an index hit, read and decode at the recorded
location (`Some(v)` for a `Set` record, `None` for a tombstone); on a miss,
lazily import log files newest-first until the key appears or everything
has been scanned. -/
def KvStoreInner.get (s : KvStoreInner) (key : String) : OpRes (Option String) :=
  match s.key_index.find? key with
  | some li =>
    match s.read_from_log li with
    | .ok (Cmd.Set _ val) => .ok (some val) s
    | .ok (Cmd.Rm _) => .ok none s
    | .err e => .err e s
    | .panic => .panic
  | none => KvStoreInner.getAux s.index_scanned s key

/-- Loop of `KvStoreInner::remove`'s miss path, fuelled like `getAux`: it
imports lazily; a found tombstone yields `KeyNotFound`, a found `Set`
record appends a tombstone, and full exhaustion yields `KeyNotFound`. -/
def KvStoreInner.removeAux : Nat → KvStoreInner → String → OpRes Unit
  | 0, s, _ => .err .KeyNotFound s
  | Nat.succ fuel, s, key =>
    if s.index_scanned = 0 then .err .KeyNotFound s
    else
      match s.import_next_log with
      | .panic => .panic
      | .err e s' => .err e s'
      | .ok _ s' =>
        match s'.key_index.find? key with
        | some li =>
          match s'.read_from_log li with
          | .ok (Cmd.Rm _) => .err .KeyNotFound s'
          | .ok (Cmd.Set _ _) => s'.append_log (.Rm key) key
          | .err e => .err e s'
          | .panic => .panic
        | none => KvStoreInner.removeAux fuel s' key

/-- `KvStoreInner::remove`: when the key has an index entry — whatever
record it points to — append a tombstone and succeed; otherwise scan
lazily (see `removeAux`). -/
def KvStoreInner.remove (s : KvStoreInner) (key : String) : OpRes Unit :=
  if (s.key_index.find? key).isSome then s.append_log (.Rm key) key
  else KvStoreInner.removeAux s.index_scanned s key

/-- `KvStoreInner::open` on a directory holding the given `wal_#####.log`
files (in file-name order) and, optionally, a `wal_active` file (created
empty when absent): an empty index, the lazy cursor one past the newest
log file, and a zero redundancy counter.  The `.engine` sentinel and
directory listing are not modelled. -/
def KvStoreInner.openStore (logs : List (List Char)) (active? : Option (List Char)) :
    KvStoreInner :=
  { key_index := []
    index_scanned := logs.length + 1
    active := active?.getD []
    wal_logs := logs
    active_redundant := 0 }

/-- Drop the engine and reopen the same directory: after every successful
operation all writes are flushed, so the directory holds exactly
`wal_logs` and the active file (the leftover `new_active` of a failed
compaction carries no `.log` suffix and is ignored by `open`). -/
def KvStoreInner.restart (s : KvStoreInner) : KvStoreInner :=
  KvStoreInner.openStore s.wal_logs (some s.active)

/-! ## Result projections -/

/-- Value of an `ok` outcome. -/
def OpRes.val? {α : Type} : OpRes α → Option α
  | .ok a _ => some a
  | _ => none

/-- State carried by an `ok` or `err` outcome. -/
def OpRes.state? {α : Type} : OpRes α → Option KvStoreInner
  | .ok _ s => some s
  | .err _ s => some s
  | .panic => none

/-- Does the operation return `Ok(..)`? -/
def OpRes.isOk {α : Type} : OpRes α → Bool
  | .ok _ _ => true
  | _ => false

/-- Does the operation return `Err(e)` for this error? -/
def OpRes.isErrOf {α : Type} : OpRes α → KvsError → Bool
  | .err e' _, e => e' = e
  | _, _ => false

/-! ## The request handler (model of `net/server.rs` and `net/mod.rs`) -/

/-- Wire request variants (`net/mod.rs::Query`). -/
inductive Query where
  | Get (k : String)
  | Set (k v : String)
  | Rm (k : String)

/-- Wire response variants (`net/mod.rs::Response`). -/
inductive Response where
  | Success
  | KeyNotFound
  | Ok (v : Option String)
  | Err
deriving DecidableEq

/-- The dispatch of `server.rs::handle` against the log engine: every
engine error — `KeyNotFound` included — is matched by `Err(_)` and mapped
to `Response::Err`.  `none` models the `unwrap()` panic path. -/
def handle (s : KvStoreInner) (q : Query) : Option Response :=
  match q with
  | .Set k v =>
    match s.set k v with
    | .ok _ _ => some .Success
    | .err _ _ => some .Err
    | .panic => none
  | .Get k =>
    match s.get k with
    | .ok v _ => some (.Ok v)
    | .err _ _ => some .Err
    | .panic => none
  | .Rm k =>
    match s.remove k with
    | .ok _ _ => some .Success
    | .err _ _ => some .Err
    | .panic => none

end Kvs

namespace Kvs

/-! ## Derived notions used to state the claims -/

/-- The state carried by a non-panicking outcome, with a fallback for the
panic case (used only to chain concrete scenarios whose steps are proved
to succeed). -/
def OpRes.stateD {α : Type} (r : OpRes α) (d : KvStoreInner) : KvStoreInner :=
  match r with
  | .ok _ s => s
  | .err _ s => s
  | .panic => d

/-- Reading and decoding at the location an index entry names: byte range
`[offset, offset + len)` of `wal_logs[file_index]`, or of the active file
when `file_index = wal_logs.len()`.  This is what the `LogIndex` data
denotes (and what a correct `read_from_log` would read); compare
`KvStoreInner.read_from_log`, which substitutes `index_scanned` for
`file_index`. -/
def readAtNamed (s : KvStoreInner) (li : LogIndex) : Option Cmd :=
  if li.file_index = s.wal_logs.length then
    decodeFull ((s.active.drop li.offset).take li.len)
  else
    match s.wal_logs.get? li.file_index with
    | none => none
    | some f => decodeFull ((f.drop li.offset).take li.len)

/-- The index invariant exactly as the specification states it: every key
present in the index maps to a location at which reading and decoding
yields a `Set(k, v)` record whose value `v` is the current value of `k`
(i.e. what `get k` returns). -/
def c6claimHolds (s : KvStoreInner) : Bool :=
  s.key_index.all fun p =>
    match readAtNamed s p.2 with
    | some (Cmd.Set k v) => decide (k = p.1) && decide ((s.get p.1).val? = some (some v))
    | _ => false

/-! ## Concrete scenario states -/

/-- C2 scenario: open an empty directory and `set "a" "1"`. -/
def c2s1 : KvStoreInner :=
  ((KvStoreInner.openStore [] none).set "a" "1").stateD (KvStoreInner.openStore [] none)

/-- C2 scenario, continued: `remove "a"` succeeds. -/
def c2s2 : KvStoreInner := (c2s1.remove "a").stateD c2s1

/-- C3 scenario: the post-compaction store shape the failing run reaches,
built directly (a store reaches it only with over a megabyte of live
active data, see the results).  A successful rollover compaction, reading
every post-rollover entry through the broken `read_from_log` from
`wal_logs[index_scanned] = wal_00000.log` instead of the previous active
file, rewrote the final key `"zz"`'s record as that file's byte-twin
record `Set("q", "w")`: the active file now holds, at `"zz"`'s index
entry, a record keyed `"q"`, and no file holds any record keyed `"zz"`. -/
def c3bad : KvStoreInner :=
  { key_index := [("k", ⟨0, 0, 17⟩), ("zz", ⟨1, 0, 17⟩)]
    index_scanned := 0
    active := encode (.Set "q" "w")
    wal_logs := [encode (.Set "k" "A")]
    active_redundant := 0 }

/-- C4 scenario: a store state about to compact, whose index entry for
`"a"` carries `len = 2_000_000 ≥ FILE_SIZE_LIMIT`, so that the compaction
loop rolls the new active file over; built directly (a store reaches such
a situation only with over a megabyte of live data in the active file). -/
def c4state : KvStoreInner :=
  { key_index := [("a", ⟨0, 0, 2000000⟩), ("b", ⟨0, 5, 7⟩)]
    index_scanned := 1
    active := encode (.Set "a" "1") ++ encode (.Set "b" "2")
    wal_logs := []
    active_redundant := 0 }

/-- C5 scenario: a directory whose active log holds one complete record
`Set("a", "1")` followed by the first 3 bytes of `Set("b", "2")` — the
on-disk picture after a crash truncated the tail mid-record. -/
def c5dir : KvStoreInner :=
  KvStoreInner.openStore []
    (some (encode (.Set "a" "1") ++ (encode (.Set "b" "2")).take 3))

/-- C6 scenario: open an empty directory, `set "a" "1"`, then a
successful `remove "a"` — the index now maps `"a"` to the tombstone. -/
def c6state : KvStoreInner :=
  let s0 := KvStoreInner.openStore [] none
  let s1 := (s0.set "a" "1").stateD s0
  (s1.remove "a").stateD s1

/-- C8 scenario: a directory whose active log holds `Set("a", "1")`,
freshly opened (nothing scanned yet). -/
def c8state : KvStoreInner :=
  KvStoreInner.openStore [] (some (encode (.Set "a" "1")))

/-- C1/C10 witness state: two one-record log files and an empty active
file, fully scanned (`index_scanned = 0`). -/
def twoLogState : KvStoreInner :=
  { key_index := []
    index_scanned := 0
    active := []
    wal_logs := [encode (.Set "a" "0"), encode (.Set "b" "1")]
    active_redundant := 0 }

/-! ## Well-formed logs, the logical store, and the repaired invariant -/

/-- Concatenation of the serializations of a list of commands: the content
a log file has when it was produced by the engine's own appends. -/
def encList (cs : List Cmd) : List Char := (cs.map encode).flatten

/-- The record list (with byte offsets and lengths) that streaming a
well-formed log of the commands `cs` yields, starting at offset `pos`. -/
def recsOf : List Cmd → Nat → List (Cmd × Nat × Nat)
  | [], _ => []
  | c :: cs, pos => (c, pos, (encode c).length) :: recsOf cs (pos + (encode c).length)

/-- Keys of the records of a file (empty on a stream error). -/
def keysOfFile (f : List Char) : List String :=
  match replayFile f with
  | .ok recs => recs.map (fun r => r.1.key)
  | .error _ => []

/-- The file at scan position `p`: position `wal_logs.len()` is the active
file, positions below it are log files (default `[]` out of range). -/
def fileAtPosD (s : KvStoreInner) (p : Nat) : List Char :=
  if p = s.wal_logs.length then s.active else s.wal_logs.getD p []

/-- All files of the store, oldest first, the active file last. -/
def filesOf (s : KvStoreInner) : List (List Char) := s.wal_logs ++ [s.active]

/-- One file's contribution to the latest-record scan: keep the last
record of the key in this file, or the accumulator when the file has none
(or does not stream). -/
def fileLastFold (k : String) (acc : Option Cmd) (f : List Char) : Option Cmd :=
  match replayFile f with
  | .ok recs => recs.foldl (fun a r => if r.1.key = k then some r.1 else a) acc
  | .error _ => acc

/-- The latest record for a key across all files (oldest-to-newest fold;
within a file, later records win).  This is the record that determines the
key's current logical value: the one recovery would find. -/
def lastCmdFor (s : KvStoreInner) (k : String) : Option Cmd :=
  (filesOf s).foldl (fileLastFold k) none

/-- The repaired index invariant (claim C6 amended), as a decidable check:
the scan cursor is in range; every file of the directory streams without
error (the engine's own appends only ever produce such files); every key
of every already-scanned file is present in the index (scan completeness);
and every index entry names an in-bounds byte range of an existing file
that decodes to a record carrying that key — namely the latest record for
that key, the one determining its current value (a `Set(k, v)` with `v`
current, or the tombstone of a currently absent key). -/
def Wb (s : KvStoreInner) : Bool :=
  decide (s.index_scanned ≤ s.wal_logs.length + 1) &&
  decide (s.key_index.map Prod.fst).Nodup &&
  (filesOf s).all (fun f => (replayFile f).isOk) &&
  (List.range (s.wal_logs.length + 1)).all (fun p =>
    decide (p < s.index_scanned) ||
    (keysOfFile (fileAtPosD s p)).all (fun k => (s.key_index.find? k).isSome)) &&
  s.key_index.all (fun pr =>
    decide (pr.2.file_index ≤ s.wal_logs.length) &&
    decide (pr.2.offset + pr.2.len ≤ (fileAtPosD s pr.2.file_index).length) &&
    match readAtNamed s pr.2 with
    | some cmd => decide (cmd.key = pr.1) && decide (lastCmdFor s pr.1 = some cmd)
    | none => false)

/-- The state `append_log` produces when neither compaction trigger
fires: the record is appended to the active file, its location (in the
file numbered `wal_logs.len()`) overwrites the key's index entry, and the
redundancy counter grows by one exactly when an entry located in the
active file was overwritten. -/
def appendState (s : KvStoreInner) (cmd : Cmd) (key : String) : KvStoreInner :=
  { s with
    active := s.active ++ encode cmd
    key_index := s.key_index.insertOv key
      ⟨s.wal_logs.length, s.active.length, (encode cmd).length⟩
    active_redundant :=
      match s.key_index.find? key with
      | some old =>
        if old.file_index = s.wal_logs.length then s.active_redundant + 1
        else s.active_redundant
      | none => s.active_redundant }

/-- One engine operation that completes with `Ok`, restricted — for the
mutating operations — to calls that stay below both compaction triggers
(`active_redundant` strictly below the threshold before the call, and the
active file not yet past `10 * FILE_SIZE_LIMIT` bytes): the compaction
loop reads through the broken `read_from_log` and its rollover violates
the invariant (claims C4/C10), so compacting steps are excluded. -/
inductive Step : KvStoreInner → KvStoreInner → Prop where
  | set (s s' : KvStoreInner) (k v : String)
      (hred : s.active_redundant < COMPACTION_THRESHOLD)
      (hoff : s.active.length ≤ 10 * FILE_SIZE_LIMIT)
      (h : s.set k v = .ok () s') : Step s s'
  | rm (s s' : KvStoreInner) (k : String)
      (hred : s.active_redundant < COMPACTION_THRESHOLD)
      (hoff : s.active.length ≤ 10 * FILE_SIZE_LIMIT)
      (h : s.remove k = .ok () s') : Step s s'
  | get (s s' : KvStoreInner) (k : String) (v : Option String)
      (h : s.get k = .ok v s') : Step s s'
  | imp (s s' : KvStoreInner)
      (h : s.import_next_log = .ok () s') : Step s s'

end Kvs

namespace Kvs

/-! ## Theorems -/

/-- Helper: `List.get?` past the end of the list. -/
theorem get?_none_of_len_le {α : Type} (l : List α) (n : Nat) (h : l.length ≤ n) :
    l.get? n = none :=
  List.get?_eq_none.mpr h

/-- C1.  The slip behind the claim's failure: once a location does not name
the active file, `read_from_log` reads `wal_logs[index_scanned]` whatever
`file_index` says — two locations naming different log files but the same
byte range read identical bytes.  With compaction rollover this makes a
successful `set(k, v)` observable by `get(k)` as a different record (or as
a panic); see the failing input in the results. -/
theorem c1_read_from_log_ignores_named_file (s : KvStoreInner) (li₁ li₂ : LogIndex)
    (hoff : li₁.offset = li₂.offset) (hlen : li₁.len = li₂.len)
    (hfi : li₁.file_index = s.wal_logs.length ↔ li₂.file_index = s.wal_logs.length) :
    s.read_from_log li₁ = s.read_from_log li₂ := by
  unfold KvStoreInner.read_from_log
  rw [hoff, hlen]
  by_cases h : li₁.file_index = s.wal_logs.length
  · rw [if_pos h, if_pos (hfi.mp h)]
  · rw [if_neg h, if_neg (fun hh => h (hfi.mpr hh))]

/-- Witness for C1's theorem: in a store with two log files, the locations
`(file 0, 0, 9)` and `(file 1, 0, 9)` — records of different files — are
read identically. -/
theorem c1_read_from_log_ignores_named_file_witness :
    twoLogState.read_from_log ⟨0, 0, 9⟩ = twoLogState.read_from_log ⟨1, 0, 9⟩ :=
  c1_read_from_log_ignores_named_file twoLogState ⟨0, 0, 9⟩ ⟨1, 0, 9⟩
    (by decide) (by decide) (by decide)

/-- C2.  Divergence from the claim at the failing input: on an empty
directory, after `set "a" "1"` and a successful `remove "a"` (after which
`get "a"` reports absence), a second `remove "a"` returns `Ok(())` — the
index still holds an entry for `"a"` (the tombstone's location), and
`remove` appends another tombstone instead of failing with `KeyNotFound`
as the claim requires. -/
theorem c2_second_remove_returns_ok :
    (c2s1.remove "a").isOk = true ∧
    (c2s2.get "a").val? = some none ∧
    (c2s2.remove "a").isOk = true ∧
    (c2s2.remove "a").isErrOf .KeyNotFound = false := by decide

/-- C3.  Pre/post-restart divergence for the key of the final acknowledged
write: on `c3bad` (the shape a successful rollover compaction leaves
behind; the run in the results ends in a successful `set` of `"zz"`),
`get "zz"` before the restart reads the active file at the index entry's
location and returns `Ok(Some "w")` — the value of a record keyed `"q"`,
because `read_from_log` never compares the decoded record's key — while
after dropping and reopening the directory the lazy replay, which binds
keys by the records' own keys, finds no record keyed `"zz"` in any file,
so `get "zz"` returns `Ok(None)`: the two successful reads disagree. -/
theorem c3_restart_changes_acknowledged_get :
    (c3bad.get "zz").val? = some (some "w") ∧
    ((c3bad.restart).get "zz").val? = some none ∧
    (c3bad.get "zz").val? ≠ ((c3bad.restart).get "zz").val? := by decide

/-- C4.  The compaction rollover path out-of-bounds: on `c4state` (whose
first live record carries `len ≥ FILE_SIZE_LIMIT`, making the loop roll
over immediately), `minor_compact` pushes the segment, then reads through
`read_from_log`, which indexes `wal_logs[index_scanned] = wal_logs[1]` in
a vector of length 1 — a panic, not a semantics-preserving compaction.  A
store reaches the rollover with over `FILE_SIZE_LIMIT` bytes of live
active data, e.g. two 700 KiB values plus `COMPACTION_THRESHOLD + 1`
overwrites (see the results). -/
theorem c4_rollover_compaction_panics : c4state.minor_compact = .panic := by decide

/-- C5, counterexample.  A directory whose active log ends in a record
truncated mid-value: the claim says replay succeeds, recovers `"a"`
(whose record wholly precedes the truncation point) and drops the rest;
the code instead propagates the stream error, so `get "a"` returns a
`SerdeJson` error and recovers nothing. -/
theorem c5_truncation_is_an_error :
    (c5dir.get "a").isErrOf .SerdeJson = true ∧ (c5dir.get "a").val? = none := by decide

/-- C6, counterexample.  After `set "a" "1"` and a successful
`remove "a"`, the key `"a"` is still present in the index, but the record
at its location is the tombstone `Rm("a")`, not a `Set` record — the
invariant exactly as stated by the specification is false. -/
theorem c6_tombstone_in_index :
    (c6state.key_index.find? "a").isSome = true ∧ c6claimHolds c6state = false := by decide

/-- C7.  Divergence at the failing input: a `Rm` request for an absent key
makes the engine fail with `KeyNotFound`, but `handle` answers
`Response::Err`, never the `Response::KeyNotFound` variant the claim
requires (the server's match maps every `Rm` error to `Err`). -/
theorem c7_rm_key_not_found_maps_to_err :
    handle (KvStoreInner.openStore [] none) (.Rm "nope") = some Response.Err ∧
    handle (KvStoreInner.openStore [] none) (.Rm "nope") ≠ some Response.KeyNotFound := by
  decide

/-- C8, counterexample.  `get` is not read-only on the engine state: on a
freshly opened directory whose log holds `Set("a", "1")`, a miss-path
`get "b"` imports the active file, adding `"a"` to the in-memory index
(and decrementing `index_scanned`). -/
theorem c8_get_mutates_index :
    (c8state.get "b").val? = some none ∧
    (c8state.get "b").state?.map KvStoreInner.key_index ≠ some c8state.key_index := by
  decide

/-- C8, amended.  Once the lazy scan has finished (`index_scanned = 0`),
`get` leaves the whole engine state unchanged: it either answers from the
index without mutating anything or panics (the latter only in states the
`read_from_log` indexing slip has already damaged). -/
theorem c8_get_frames_state_after_scan (s : KvStoreInner) (key : String)
    (h : s.index_scanned = 0) :
    (s.get key).state? = some s ∨ s.get key = .panic := by
  unfold KvStoreInner.get
  cases hf : s.key_index.find? key with
  | some li =>
    cases hr : s.read_from_log li with
    | ok c => cases c <;> simp [hr, OpRes.state?]
    | err e => simp [hr, OpRes.state?]
    | panic => simp [hr]
  | none =>
    rw [h]
    simp [KvStoreInner.getAux, OpRes.state?]

/-- Witness for C8's amended theorem: on the fully scanned `twoLogState`,
`get "a"` preserves the state (left disjunct). -/
theorem c8_get_frames_state_after_scan_witness :
    (twoLogState.get "a").state? = some twoLogState ∨ twoLogState.get "a" = .panic :=
  c8_get_frames_state_after_scan twoLogState "a" (by decide)

/-- C10.  The unchecked vector access: whenever a location does not name
the active file and `index_scanned` is not below `wal_logs.len()`,
`read_from_log` indexes `wal_logs` out of bounds and panics.  Reachable
through `minor_compact`'s rollover (which grows `wal_logs` while
`index_scanned` still exceeds the old length — the `c4state` trace), so
the operations are not panic-free. -/
theorem c10_read_from_log_out_of_bounds (s : KvStoreInner) (li : LogIndex)
    (h1 : li.file_index ≠ s.wal_logs.length)
    (h2 : s.wal_logs.length ≤ s.index_scanned) :
    s.read_from_log li = .panic := by
  unfold KvStoreInner.read_from_log
  rw [if_neg h1, get?_none_of_len_le s.wal_logs s.index_scanned h2]

/-- Witness for C10's theorem: a store with one log file and
`index_scanned = 2` panics reading a location that names file 0. -/
theorem c10_read_from_log_out_of_bounds_witness :
    KvStoreInner.read_from_log
      ⟨[], 2, [], [encode (.Set "a" "0")], 0⟩ ⟨0, 0, 9⟩ = .panic :=
  c10_read_from_log_out_of_bounds ⟨[], 2, [], [encode (.Set "a" "0")], 0⟩ ⟨0, 0, 9⟩
    (by decide) (by decide)

end Kvs



namespace Kvs

/-! ### Codec lemmas: soundness and completeness of the `Cmd` codec -/

/-- Unfolding lemma for `parseStr` on a cons cell. -/
theorem parseStr_cons (c : Char) (r : List Char) :
    parseStr (c :: r) =
      (if c = '"' then some ([], r)
       else if c = '\\' then
         match r with
         | [] => none
         | d :: r' =>
           if d = '"' ∨ d = '\\' then (parseStr r').map (fun p => (d :: p.1, p.2)) else none
       else (parseStr r).map (fun p => (c :: p.1, p.2))) := by
  rw [parseStr.eq_def]

/-- Matching a literal against itself followed by anything succeeds. -/
theorem expectPfx_self_append (p : List Char) (r : List Char) :
    expectPfx p (p ++ r) = some r := by
  induction p with
  | nil => rfl
  | cons c cs ih => simpa [expectPfx] using ih

/-- Soundness of `expectPfx`: consumed bytes are exactly the literal. -/
theorem expectPfx_sound (p : List Char) :
    ∀ l r, expectPfx p l = some r → l = p ++ r := by
  induction p with
  | nil =>
    intro l r h
    simp only [expectPfx, Option.some.injEq] at h
    simp [h]
  | cons c cs ih =>
    intro l r h
    cases l with
    | nil => simp [expectPfx] at h
    | cons x xs =>
      simp only [expectPfx] at h
      by_cases hx : x = c
      · rw [if_pos hx] at h
        simpa [hx] using ih xs r h
      · rw [if_neg hx] at h
        exact absurd h (by simp)

/-- Completeness of `parseStr` on escaped content followed by the closing
quote: it recovers the original characters and the remainder. -/
theorem parseStr_escape (s : List Char) (r : List Char) :
    parseStr (escape s ++ '"' :: r) = some (s, r) := by
  induction s with
  | nil =>
    simp only [escape, List.nil_append]
    rw [parseStr_cons]
    simp
  | cons c cs ih =>
    by_cases hc : c = '"' ∨ c = '\\'
    · simp only [escape, if_pos hc, List.cons_append]
      rw [parseStr_cons]
      simp [hc, ih]
    · have h1 : ¬ c = '"' := fun h => hc (Or.inl h)
      have h2 : ¬ c = '\\' := fun h => hc (Or.inr h)
      simp only [escape, if_neg hc, List.cons_append]
      rw [parseStr_cons]
      simp [h1, h2, ih]

/-- Soundness of `parseStr`: a successful parse consumed exactly the
escaped body and the closing quote. -/
theorem parseStr_sound :
    ∀ l p r, parseStr l = some (p, r) → l = escape p ++ '"' :: r := by
  intro l
  induction l using parseStr.induct with
  | case1 => intro p r h; simp [parseStr] at h
  | case2 rest =>
    intro p r h
    rw [parseStr_cons] at h
    simp only [if_pos rfl, Option.some.injEq, Prod.mk.injEq] at h
    obtain ⟨rfl, rfl⟩ := h
    simp [escape]
  | case3 hne =>
    intro p r h
    rw [parseStr_cons] at h
    simp [if_neg hne] at h
  | case4 d r' hd hne ih =>
    intro p r h
    rw [parseStr_cons] at h
    simp only [if_neg hne, if_pos rfl, if_pos hd] at h
    cases hm : parseStr r' with
    | none => rw [hm] at h; simp at h
    | some pr =>
      obtain ⟨a, b⟩ := pr
      rw [hm] at h
      simp only [Option.map_some'] at h
      cases h
      have ht := ih _ _ hm
      simp [escape, if_pos hd, ht]
  | case5 d r' hd hne =>
    intro p r h
    rw [parseStr_cons] at h
    simp [if_neg hne, if_neg hd] at h
  | case6 d r' h1 h2 ih =>
    intro p r h
    rw [parseStr_cons] at h
    simp only [if_neg h1, if_neg h2] at h
    cases hm : parseStr r' with
    | none => rw [hm] at h; simp at h
    | some pr =>
      obtain ⟨a, b⟩ := pr
      rw [hm] at h
      simp only [Option.map_some'] at h
      cases h
      have ht := ih _ _ hm
      have hc : ¬ (d = '"' ∨ d = '\\') := by
        intro hor
        rcases hor with hA | hA
        · exact h1 hA
        · exact h2 hA
      simp [escape, if_neg hc, ht]

/-- Completeness of `parseQ` on a serialized string literal. -/
theorem parseQ_qstr (s : String) (r : List Char) :
    parseQ (qstr s ++ r) = some (s, r) := by
  have hsh : (escape s.data ++ ['"']) ++ r = escape s.data ++ '"' :: r := by
    simp
  simp [qstr, parseQ, hsh, parseStr_escape]

/-- Soundness of `parseQ`: it consumed exactly a serialized string. -/
theorem parseQ_sound :
    ∀ (l : List Char) (s : String) (r : List Char),
      parseQ l = some (s, r) → l = qstr s ++ r := by
  intro l s r h
  rw [parseQ.eq_def] at h
  split at h
  next r0 =>
    simp only [Option.map_eq_some'] at h
    obtain ⟨⟨a, b⟩, hab, heq⟩ := h
    have hs : (⟨a⟩ : String) = s := congrArg Prod.fst heq
    have hr : b = r := congrArg Prod.snd heq
    subst hr
    subst hs
    have ht := parseStr_sound r0 a b hab
    simp [qstr, ht]
  next => exact absurd h (by simp)

end Kvs

namespace Kvs

/-- The `Set` header does not match a serialized `Rm` (third byte). -/
theorem expectPfx_hdrSet_hdrRm (x : List Char) : expectPfx hdrSet (hdrRm ++ x) = none := by
  simp [hdrSet, hdrRm, expectPfx]

/-- Completeness of `parseOne`: a serialized command followed by anything
parses to that command with the rest untouched. -/
theorem parseOne_encode (c : Cmd) (r : List Char) :
    parseOne (encode c ++ r) = some (c, r) := by
  cases c with
  | Set k v =>
    have h1 : encode (Cmd.Set k v) ++ r =
        hdrSet ++ (qstr k ++ ([','] ++ (qstr v ++ ([']', '\x7d'] ++ r)))) := by
      simp [encode]
    rw [h1]
    rw [parseOne]
    simp only [expectPfx_self_append, parseQ_qstr]
  | Rm k =>
    have h1 : encode (Cmd.Rm k) ++ r = hdrRm ++ (qstr k ++ (['\x7d'] ++ r)) := by
      simp [encode]
    rw [h1]
    rw [parseOne]
    simp only [expectPfx_hdrSet_hdrRm, expectPfx_self_append, parseQ_qstr]

/-- Soundness of `parseOne`: a successful parse consumed exactly the
serialization of the returned command. -/
theorem parseOne_sound :
    ∀ l c r, parseOne l = some (c, r) → l = encode c ++ r := by
  intro l c r h
  unfold parseOne at h
  split at h
  next r0 hS =>
    split at h
    next => simp at h
    next k r1 hq1 =>
      split at h
      next => simp at h
      next r2 hc1 =>
        split at h
        next => simp at h
        next v r3 hq2 =>
          split at h
          next => simp at h
          next r4 he =>
            cases h
            have e1 := expectPfx_sound _ _ _ hS
            have e2 := parseQ_sound _ _ _ hq1
            have e3 := expectPfx_sound _ _ _ hc1
            have e4 := parseQ_sound _ _ _ hq2
            have e5 := expectPfx_sound _ _ _ he
            subst e5
            subst e4
            subst e3
            subst e2
            subst e1
            simp [encode]
  next hS =>
    split at h
    next => simp at h
    next r0 hR =>
      split at h
      next => simp at h
      next k r1 hq1 =>
        split at h
        next => simp at h
        next r2 he =>
          cases h
          have e1 := expectPfx_sound _ _ _ hR
          have e2 := parseQ_sound _ _ _ hq1
          have e3 := expectPfx_sound _ _ _ he
          subst e3
          subst e2
          subst e1
          simp [encode]

/-- Parsing is local: appending bytes after a parseable value does not
change what is parsed. -/
theorem parseOne_append (l : List Char) (c : Cmd) (rest X : List Char)
    (h : parseOne l = some (c, rest)) : parseOne (l ++ X) = some (c, rest ++ X) := by
  have hs := parseOne_sound l c rest h
  subst hs
  rw [List.append_assoc, parseOne_encode]

/-- A serialization is nonempty. -/
theorem encode_ne_nil (c : Cmd) : encode c ≠ [] := by
  cases c <;> simp [encode, hdrSet, hdrRm]

/-- Decoding an exact serialization recovers the command
(`serde_json::from_reader` on a `take` of exactly the record's bytes). -/
theorem decodeFull_encode (c : Cmd) : decodeFull (encode c) = some c := by
  have h := parseOne_encode c []
  rw [List.append_nil] at h
  simp [decodeFull, h]

/-- A strict prefix of a serialization does not parse: the command codec
is prefix-free, so a record truncated at any byte short of its end is a
deserialization error. -/
theorem parseOne_take_encode_none (c : Cmd) (n : Nat) (h2 : n < (encode c).length) :
    parseOne ((encode c).take n) = none := by
  cases hp : parseOne ((encode c).take n) with
  | none => rfl
  | some pr =>
    obtain ⟨c', r⟩ := pr
    exfalso
    have hs := parseOne_sound _ _ _ hp
    have hfull : encode c' ++ (r ++ (encode c).drop n) = encode c := by
      rw [← List.append_assoc, ← hs, List.take_append_drop]
    have h3 : parseOne (encode c) = some (c, []) := by
      have h := parseOne_encode c []
      rwa [List.append_nil] at h
    have h4 : parseOne (encode c) = some (c', r ++ (encode c).drop n) := by
      conv_lhs => rw [← hfull]
      rw [parseOne_encode]
    rw [h3] at h4
    simp only [Option.some.injEq, Prod.mk.injEq] at h4
    obtain ⟨hc', hr⟩ := h4
    have hdrop : (encode c).drop n = [] := (List.append_eq_nil.mp hr.symm).2
    have hle : (encode c).length ≤ n := by
      have := congrArg List.length hdrop
      simp only [List.length_drop, List.length_nil] at this
      omega
    omega

end Kvs

namespace Kvs

/-! ### Streaming-replay lemmas -/

/-- Unfolding: the encoded log of a cons. -/
theorem encList_cons (c : Cmd) (cs : List Cmd) :
    encList (c :: cs) = encode c ++ encList cs := by
  simp [encList]

/-- A serialization has positive length. -/
theorem encode_length_pos (c : Cmd) : 0 < (encode c).length :=
  List.length_pos.mpr (encode_ne_nil c)

/-- An encoded log is at least as long as its record count. -/
theorem encList_length_ge (cs : List Cmd) : cs.length ≤ (encList cs).length := by
  induction cs with
  | nil => simp [encList]
  | cons c cs ih =>
    rw [encList_cons]
    have := encode_length_pos c
    simp only [List.length_cons, List.length_append]
    omega

/-- Unfolding of the streaming loop on a nonempty input with fuel left. -/
theorem replayAux_ne_nil (fu : Nat) (l : List Char) (hl : l ≠ []) (pos : Nat)
    (acc : List (Cmd × Nat × Nat)) :
    replayAux (fu + 1) l pos acc =
      (match parseOne l with
       | none => .error ()
       | some (_, rest) =>
         replayAux fu rest (pos + (l.length - rest.length))
           ((match parseOne l with
             | none => Cmd.Rm ""
             | some (cmd, _) => cmd, pos, l.length - rest.length) :: acc)) := by
  cases l with
  | nil => exact absurd rfl hl
  | cons x r =>
    rw [replayAux]
    cases parseOne (x :: r) with
    | none => rfl
    | some pr => rfl

/-- Master completeness lemma for the streaming loop: streaming an encoded
log followed by a tail first yields exactly the log's records (fuel drops
by one per record, position advances by the encoded length), then
continues on the tail. -/
theorem replayAux_encList (cs : List Cmd) :
    ∀ (t : List Char) (fu pos : Nat) (acc : List (Cmd × Nat × Nat)),
      (encList cs ++ t).length ≤ fu →
      replayAux fu (encList cs ++ t) pos acc =
        replayAux (fu - cs.length) t (pos + (encList cs).length)
          ((recsOf cs pos).reverse ++ acc) := by
  induction cs with
  | nil =>
    intro t fu pos acc hfu
    simp [encList, recsOf]
  | cons c cs ih =>
    intro t fu pos acc hfu
    rw [encList_cons, List.append_assoc] at hfu ⊢
    have hpos1 : 0 < (encode c).length := encode_length_pos c
    have hne : encode c ++ (encList cs ++ t) ≠ [] := by
      intro hnil
      have hh := congrArg List.length hnil
      simp only [List.length_append, List.length_nil] at hh
      omega
    cases fu with
    | zero =>
      exfalso
      simp only [List.length_append, Nat.le_zero] at hfu
      omega
    | succ fu' =>
      rw [replayAux_ne_nil fu' _ hne pos acc]
      simp only [parseOne_encode]
      have hlen1 : (encode c ++ (encList cs ++ t)).length - (encList cs ++ t).length
          = (encode c).length := by
        simp
      rw [hlen1]
      have hfu' : (encList cs ++ t).length ≤ fu' := by
        simp only [List.length_append] at hfu ⊢
        omega
      rw [ih t fu' (pos + (encode c).length) _ hfu']
      have efuel : fu' + 1 - (c :: cs).length = fu' - cs.length := by
        simp
      have epos : pos + (encode c ++ encList cs).length
          = pos + (encode c).length + (encList cs).length := by
        simp [Nat.add_assoc]
      have eacc : (recsOf (c :: cs) pos).reverse ++ acc
          = (recsOf cs (pos + (encode c).length)).reverse ++
              ((c, pos, (encode c).length) :: acc) := by
        rw [recsOf]
        simp
      rw [efuel, epos, eacc]

/-- Streaming a well-formed encoded log succeeds and reports exactly the
records with their byte offsets and lengths. -/
theorem replayFile_encList (cs : List Cmd) :
    replayFile (encList cs) = .ok (recsOf cs 0) := by
  have h := replayAux_encList cs [] (encList cs).length 0 [] (by simp)
  rw [List.append_nil] at h
  rw [replayFile, h]
  rw [replayAux]
  simp

/-- Soundness of the streaming loop: a successful replay means the input
was an encoded log and the output lists its records in order. -/
theorem replayAux_sound :
    ∀ (fu : Nat) (l : List Char) (pos : Nat) (acc out : List (Cmd × Nat × Nat)),
      replayAux fu l pos acc = .ok out →
      ∃ cs : List Cmd, l = encList cs ∧ out = acc.reverse ++ recsOf cs pos := by
  intro fu
  induction fu with
  | zero =>
    intro l pos acc out h
    cases l with
    | nil =>
      refine ⟨[], by simp [encList], ?_⟩
      simp only [replayAux] at h
      simp [recsOf]
      exact (Except.ok.inj h).symm
    | cons x xs => simp [replayAux] at h
  | succ fu ih =>
    intro l pos acc out h
    cases l with
    | nil =>
      refine ⟨[], by simp [encList], ?_⟩
      simp only [replayAux] at h
      simp [recsOf]
      exact (Except.ok.inj h).symm
    | cons x xs =>
      rw [replayAux] at h
      cases hp : parseOne (x :: xs) with
      | none => rw [hp] at h; simp at h
      | some pr =>
        obtain ⟨cmd, rest⟩ := pr
        rw [hp] at h
        obtain ⟨cs', hrest, hout⟩ := ih rest _ _ _ h
        have hsound := parseOne_sound _ _ _ hp
        refine ⟨cmd :: cs', ?_, ?_⟩
        · rw [encList_cons, ← hrest, hsound]
        · have hcons : (x :: xs).length - rest.length = (encode cmd).length := by
            rw [hsound]
            simp
          rw [hout, hcons]
          rw [recsOf]
          simp only [List.reverse_cons, List.append_assoc]
          simp [hcons]
end Kvs

namespace Kvs

/-- Streaming a log whose tail is a record truncated mid-value fails:
the preceding complete records are parsed, then the incomplete trailing
value is a stream error (`serde_json` `EOF while parsing`), which
`import_next_log` propagates with `cmd?`. -/
theorem replayFile_truncated (cs : List Cmd) (c : Cmd) (n : Nat)
    (h1 : 0 < n) (h2 : n < (encode c).length) :
    replayFile (encList cs ++ (encode c).take n) = .error () := by
  rw [replayFile]
  rw [replayAux_encList cs ((encode c).take n) _ 0 [] (le_refl _)]
  have htne : (encode c).take n ≠ [] := by
    intro hnil
    have hh := congrArg List.length hnil
    simp only [List.length_take, List.length_nil] at hh
    omega
  have hfuel : ∃ m, (encList cs ++ (encode c).take n).length - cs.length = m + 1 := by
    have hge := encList_length_ge cs
    simp only [List.length_append, List.length_take]
    refine ⟨(encList cs).length - cs.length + min n (encode c).length - 1, ?_⟩
    omega
  obtain ⟨m, hm⟩ := hfuel
  rw [hm, replayAux_ne_nil m _ htne]
  rw [parseOne_take_encode_none c n h2]

/-- C5, amended.  Opening a directory whose active log is truncated at an
arbitrary byte offset inside a record still succeeds (`open` performs no
replay; recovery is lazy), but the replay of that file — here triggered
directly through `import_next_log`, as the first `get`/`remove` miss would
do — does not tolerate the partial trailing record: it fails with a
`SerdeJson` error, and no key of the file (not even one whose record lies
wholly before the truncation point) is recovered: the index stays empty
while the scan cursor has already consumed the file. -/
theorem c5_truncated_replay_errors (cs : List Cmd) (c : Cmd) (n : Nat)
    (h1 : 0 < n) (h2 : n < (encode c).length) :
    (KvStoreInner.openStore [] (some (encList cs ++ (encode c).take n))).import_next_log
      = .err .SerdeJson
          { key_index := []
            index_scanned := 0
            active := encList cs ++ (encode c).take n
            wal_logs := []
            active_redundant := 0 } := by
  have hrep := replayFile_truncated cs c n h1 h2
  simp [KvStoreInner.openStore, KvStoreInner.import_next_log, hrep]

/-- Witness for C5's amended theorem: one complete record followed by the
first 3 bytes of a second one. -/
theorem c5_truncated_replay_errors_witness :
    (KvStoreInner.openStore []
        (some (encList [Cmd.Set "a" "1"] ++ (encode (Cmd.Set "b" "2")).take 3))).import_next_log
      = .err .SerdeJson
          { key_index := []
            index_scanned := 0
            active := encList [Cmd.Set "a" "1"] ++ (encode (Cmd.Set "b" "2")).take 3
            wal_logs := []
            active_redundant := 0 } :=
  c5_truncated_replay_errors [Cmd.Set "a" "1"] (Cmd.Set "b" "2") 3 (by decide) (by decide)

end Kvs

namespace Kvs

/-! ### Map lemmas -/

/-- Inserting then looking up the same key. -/
theorem find?_insertOv_self (m : KeyMap) (k : String) (v : LogIndex) :
    (m.insertOv k v).find? k = some v := by
  induction m with
  | nil => simp [KeyMap.insertOv, KeyMap.find?]
  | cons p r ih =>
    obtain ⟨k', v'⟩ := p
    by_cases h : k' = k
    · simp [KeyMap.insertOv, KeyMap.find?, h]
    · simp [KeyMap.insertOv, KeyMap.find?, h, ih]

/-- Inserting one key does not affect lookups of another. -/
theorem find?_insertOv_ne (m : KeyMap) (k k' : String) (v : LogIndex) (h : k' ≠ k) :
    (m.insertOv k v).find? k' = m.find? k' := by
  have hks : ¬ k = k' := fun hh => h hh.symm
  induction m with
  | nil => simp [KeyMap.insertOv, KeyMap.find?, hks]
  | cons p r ih =>
    obtain ⟨k0, v0⟩ := p
    by_cases h0 : k0 = k
    · subst h0
      simp [KeyMap.insertOv, KeyMap.find?, hks]
    · simp only [KeyMap.insertOv, if_neg h0, KeyMap.find?]
      by_cases h1 : k0 = k'
      · simp [h1]
      · simp [h1, ih]

/-- `or_insert` keeps an existing binding. -/
theorem find?_orInsert_some (m : KeyMap) (k : String) (v w : LogIndex)
    (h : m.find? k = some w) : (m.orInsert k v).find? k = some w := by
  simp [KeyMap.orInsert, h]

/-- `or_insert` installs the binding when the key is absent. -/
theorem find?_orInsert_none (m : KeyMap) (k : String) (v : LogIndex)
    (h : m.find? k = none) : (m.orInsert k v).find? k = some v := by
  simp [KeyMap.orInsert, h, find?_insertOv_self]

/-- `or_insert` of one key does not affect lookups of another. -/
theorem find?_orInsert_ne (m : KeyMap) (k k' : String) (v : LogIndex) (h : k' ≠ k) :
    (m.orInsert k v).find? k' = m.find? k' := by
  unfold KeyMap.orInsert
  split
  · rfl
  · exact find?_insertOv_ne m k k' v h

end Kvs

namespace Kvs

/-! ### Last-record fold lemmas -/

/-- The local-index fold of `import_next_log` is a last-match fold on the
record list. -/
theorem find?_localIdx_fold (recs : List (Cmd × Nat × Nat)) (i : Nat) :
    ∀ (m0 : KeyMap) (k : String),
      (recs.foldl (fun m r => m.insertOv r.1.key ⟨i, r.2.1, r.2.2⟩) m0).find? k
        = recs.foldl
            (fun a r => if r.1.key = k then some (⟨i, r.2.1, r.2.2⟩ : LogIndex) else a)
            (m0.find? k) := by
  induction recs with
  | nil => intro m0 k; rfl
  | cons r0 rest ih =>
    intro m0 k
    simp only [List.foldl_cons]
    rw [ih]
    by_cases h : r0.1.key = k
    · rw [if_pos h, h, find?_insertOv_self]
    · rw [if_neg h, find?_insertOv_ne m0 _ k _ (fun hh => h hh.symm)]

/-- A last-match fold commutes with projecting the kept record. -/
theorem foldl_lastMatch_map {β : Type} (recs : List (Cmd × Nat × Nat)) (k : String)
    (f : (Cmd × Nat × Nat) → β) :
    ∀ (base : Option (Cmd × Nat × Nat)),
      recs.foldl (fun a r => if r.1.key = k then some (f r) else a) (base.map f)
        = (recs.foldl (fun a r => if r.1.key = k then some r else a) base).map f := by
  induction recs with
  | nil => intro base; rfl
  | cons r0 rest ih =>
    intro base
    simp only [List.foldl_cons]
    by_cases h : r0.1.key = k
    · rw [if_pos h, if_pos h]
      exact ih (some r0)
    · rw [if_neg h, if_neg h]
      exact ih base

/-- What a last-match fold returns: a matching member, or the base. -/
theorem foldl_lastMatch_mem (recs : List (Cmd × Nat × Nat)) (k : String) :
    ∀ (base : Option (Cmd × Nat × Nat)) (r : Cmd × Nat × Nat),
      recs.foldl (fun a r => if r.1.key = k then some r else a) base = some r →
      (r ∈ recs ∧ r.1.key = k) ∨ base = some r := by
  induction recs with
  | nil => intro base r h; exact Or.inr h
  | cons r0 rest ih =>
    intro base r h
    simp only [List.foldl_cons] at h
    by_cases h0 : r0.1.key = k
    · rw [if_pos h0] at h
      rcases ih (some r0) r h with ⟨hm, hk⟩ | hb
      · exact Or.inl ⟨List.mem_cons_of_mem _ hm, hk⟩
      · have : r0 = r := Option.some.inj hb
        subst this
        exact Or.inl ⟨List.mem_cons_self _ _, h0⟩
    · rw [if_neg h0] at h
      rcases ih base r h with ⟨hm, hk⟩ | hb
      · exact Or.inl ⟨List.mem_cons_of_mem _ hm, hk⟩
      · exact Or.inr hb

/-- A last-match fold over records none of which match leaves the base. -/
theorem foldl_lastMatch_no_match (recs : List (Cmd × Nat × Nat)) (k : String) :
    ∀ (base : Option (Cmd × Nat × Nat)), (∀ r ∈ recs, r.1.key ≠ k) →
      recs.foldl (fun a r => if r.1.key = k then some r else a) base = base := by
  induction recs with
  | nil => intro base h; rfl
  | cons r0 rest ih =>
    intro base h
    simp only [List.foldl_cons]
    rw [if_neg (h r0 (List.mem_cons_self _ _))]
    exact ih base (fun r hr => h r (List.mem_cons_of_mem _ hr))

/-! ### Facts about the records of encoded logs -/

/-- Encoded logs concatenate. -/
theorem encList_append (cs ds : List Cmd) :
    encList (cs ++ ds) = encList cs ++ encList ds := by
  simp [encList]

/-- The records of a concatenated log. -/
theorem recsOf_append (cs ds : List Cmd) :
    ∀ pos, recsOf (cs ++ ds) pos
      = recsOf cs pos ++ recsOf ds (pos + (encList cs).length) := by
  induction cs with
  | nil => intro pos; simp [recsOf, encList]
  | cons c cs ih =>
    intro pos
    simp only [List.cons_append, recsOf, List.append_eq]
    rw [ih, encList_cons]
    simp only [List.length_append]
    rw [← Nat.add_assoc]

/-- The commands of the records of an encoded log are the log. -/
theorem recsOf_map_fst (cs : List Cmd) : ∀ pos, (recsOf cs pos).map (fun r => r.1) = cs := by
  induction cs with
  | nil => intro pos; rfl
  | cons c cs ih => intro pos; simp [recsOf, ih]

/-- A record of an encoded log names exactly its serialization's byte
range. -/
theorem recsOf_slice (cs : List Cmd) :
    ∀ pos r, r ∈ recsOf cs pos →
      pos ≤ r.2.1 ∧ r.2.1 + r.2.2 ≤ pos + (encList cs).length ∧
      ((encList cs).drop (r.2.1 - pos)).take r.2.2 = encode r.1 := by
  induction cs with
  | nil => intro pos r h; simp [recsOf] at h
  | cons c cs ih =>
    intro pos r h
    rw [recsOf] at h
    rcases List.mem_cons.mp h with rfl | htail
    · refine ⟨Nat.le_refl _, ?_, ?_⟩
      · rw [encList_cons]
        simp only [List.length_append]
        omega
      · rw [encList_cons, Nat.sub_self, List.drop_zero]
        rw [List.take_append_eq_append_take]
        simp [List.take_length]
    · obtain ⟨h1, h2, h3⟩ := ih (pos + (encode c).length) r htail
      refine ⟨by omega, ?_, ?_⟩
      · rw [encList_cons]
        simp only [List.length_append]
        omega
      · rw [encList_cons]
        have hoff : r.2.1 - pos = (encode c).length + (r.2.1 - (pos + (encode c).length)) := by
          omega
        rw [hoff, List.drop_append, h3]

end Kvs

namespace Kvs

/-- Reading a record of an encoded log at its recorded byte range decodes
to the record's command. -/
theorem recsOf_decode (cs : List Cmd) (r : Cmd × Nat × Nat) (h : r ∈ recsOf cs 0) :
    r.2.1 + r.2.2 ≤ (encList cs).length ∧
    decodeFull (((encList cs).drop r.2.1).take r.2.2) = some r.1 := by
  obtain ⟨_, h2, h3⟩ := recsOf_slice cs 0 r h
  simp only [Nat.zero_add, Nat.sub_zero] at h2 h3
  exact ⟨h2, by rw [h3, decodeFull_encode]⟩

/-- A successfully replayed file is an encoded log, and the replay lists
exactly its records. -/
theorem replayFile_ok_elim (f : List Char) (recs : List (Cmd × Nat × Nat))
    (h : replayFile f = .ok recs) :
    ∃ cs, f = encList cs ∧ recs = recsOf cs 0 := by
  obtain ⟨cs, h1, h2⟩ := replayAux_sound f.length f 0 [] recs h
  exact ⟨cs, h1, by simpa using h2⟩

/-- Appending one record to a replayable file appends one record to its
replay, located at the old end of the file. -/
theorem replayFile_append (f : List Char) (recs : List (Cmd × Nat × Nat)) (c : Cmd)
    (h : replayFile f = .ok recs) :
    replayFile (f ++ encode c) = .ok (recs ++ [(c, f.length, (encode c).length)]) := by
  obtain ⟨cs, rfl, rfl⟩ := replayFile_ok_elim f recs h
  have henc : encList cs ++ encode c = encList (cs ++ [c]) := by
    rw [encList_append]
    simp [encList]
  rw [henc, replayFile_encList, recsOf_append]
  simp [recsOf]

/-- The keys of an encoded log file. -/
theorem keysOfFile_encList (cs : List Cmd) :
    keysOfFile (encList cs) = cs.map Cmd.key := by
  rw [keysOfFile, replayFile_encList]
  have h := recsOf_map_fst cs 0
  calc (recsOf cs 0).map (fun r => r.1.key)
      = ((recsOf cs 0).map (fun r => r.1)).map Cmd.key := by simp [List.map_map]
    _ = cs.map Cmd.key := by rw [h]

/-- `append_log` below both compaction triggers: no compaction runs and
the resulting state is `appendState`. -/
theorem append_log_no_compact (s : KvStoreInner) (cmd : Cmd) (key : String)
    (hred : s.active_redundant < COMPACTION_THRESHOLD)
    (hoff : s.active.length ≤ 10 * FILE_SIZE_LIMIT) :
    s.append_log cmd key = .ok () (appendState s cmd key) := by
  have h1 : ¬ (COMPACTION_THRESHOLD < s.active_redundant + 1) := by omega
  have h2 : ¬ (10 * FILE_SIZE_LIMIT < s.active.length) := Nat.not_lt.mpr hoff
  unfold KvStoreInner.append_log appendState
  cases hold : s.key_index.find? key with
  | none => simp [hold, h2]
  | some old =>
    by_cases hfi : old.file_index = s.wal_logs.length
    · simp [hold, hfi, h1, h2]
    · simp [hold, hfi, h2]

end Kvs

namespace Kvs

/-! ### More map lemmas: membership and key uniqueness -/

/-- A successful lookup is a member. -/
theorem find?_some_mem (m : KeyMap) (k : String) (v : LogIndex)
    (h : m.find? k = some v) : (k, v) ∈ m := by
  induction m with
  | nil => simp [KeyMap.find?] at h
  | cons p r ih =>
    obtain ⟨k0, v0⟩ := p
    simp only [KeyMap.find?] at h
    by_cases h0 : k0 = k
    · rw [if_pos h0] at h
      subst h0
      cases h
      exact List.mem_cons_self _ _
    · rw [if_neg h0] at h
      exact List.mem_cons_of_mem _ (ih h)

/-- With unique keys, membership determines lookup. -/
theorem mem_find?_of_nodup (m : KeyMap) (k : String) (v : LogIndex)
    (hnd : (m.map Prod.fst).Nodup) (h : (k, v) ∈ m) : m.find? k = some v := by
  induction m with
  | nil => simp at h
  | cons p r ih =>
    obtain ⟨k0, v0⟩ := p
    simp only [List.map_cons, List.nodup_cons] at hnd
    rcases List.mem_cons.mp h with heq | hmem
    · cases heq
      simp [KeyMap.find?]
    · have hk0 : k0 ≠ k := by
        intro hk
        subst hk
        exact hnd.1 (List.mem_map.mpr ⟨(k0, v), hmem, rfl⟩)
      simp only [KeyMap.find?, if_neg hk0]
      exact ih hnd.2 hmem

/-- Members of an overwrite-insert come from the insertion or the map. -/
theorem mem_insertOv (m : KeyMap) (k : String) (v : LogIndex) (q : String × LogIndex)
    (h : q ∈ m.insertOv k v) : q = (k, v) ∨ q ∈ m := by
  induction m with
  | nil => simpa [KeyMap.insertOv] using h
  | cons p r ih =>
    obtain ⟨k0, v0⟩ := p
    by_cases h0 : k0 = k
    · subst h0
      rw [KeyMap.insertOv, if_pos rfl] at h
      rcases List.mem_cons.mp h with heq | hmem
      · exact Or.inl heq
      · exact Or.inr (List.mem_cons_of_mem _ hmem)
    · rw [KeyMap.insertOv, if_neg h0] at h
      rcases List.mem_cons.mp h with heq | hmem
      · exact Or.inr (heq ▸ List.mem_cons_self _ _)
      · rcases ih hmem with h1 | h1
        · exact Or.inl h1
        · exact Or.inr (List.mem_cons_of_mem _ h1)

/-- `insertOv` preserves key uniqueness. -/
theorem nodup_insertOv (m : KeyMap) (k : String) (v : LogIndex)
    (hnd : (m.map Prod.fst).Nodup) : ((m.insertOv k v).map Prod.fst).Nodup := by
  induction m with
  | nil => simp [KeyMap.insertOv]
  | cons p r ih =>
    obtain ⟨k0, v0⟩ := p
    simp only [List.map_cons, List.nodup_cons] at hnd
    by_cases h0 : k0 = k
    · subst h0
      have hred : KeyMap.insertOv ((k0, v0) :: r) k0 v = (k0, v) :: r := by
        rw [KeyMap.insertOv]
        simp
      rw [hred]
      simp only [List.map_cons, List.nodup_cons]
      exact ⟨hnd.1, hnd.2⟩
    · simp only [KeyMap.insertOv, if_neg h0, List.map_cons, List.nodup_cons]
      refine ⟨?_, ih hnd.2⟩
      intro hmem
      obtain ⟨q, hq, hq2⟩ := List.mem_map.mp hmem
      rcases mem_insertOv r k v q hq with h1 | h1
      · exact h0 (by rw [← hq2, h1])
      · exact hnd.1 (List.mem_map.mpr ⟨q, h1, hq2⟩)

/-- `orInsert` preserves key uniqueness. -/
theorem nodup_orInsert (m : KeyMap) (k : String) (v : LogIndex)
    (hnd : (m.map Prod.fst).Nodup) : ((m.orInsert k v).map Prod.fst).Nodup := by
  unfold KeyMap.orInsert
  split
  · exact hnd
  · exact nodup_insertOv m k v hnd

/-- A fold of overwrite-inserts preserves key uniqueness. -/
theorem nodup_foldl_insertOv (recs : List (Cmd × Nat × Nat)) (i : Nat) :
    ∀ (m0 : KeyMap), (m0.map Prod.fst).Nodup →
      (((recs.foldl (fun m r => m.insertOv r.1.key ⟨i, r.2.1, r.2.2⟩) m0)).map Prod.fst).Nodup := by
  induction recs with
  | nil => intro m0 h; exact h
  | cons r0 rest ih =>
    intro m0 h
    exact ih _ (nodup_insertOv m0 _ _ h)

/-- A fold of `orInsert`s preserves key uniqueness. -/
theorem nodup_foldl_orInsert (local_ : KeyMap) :
    ∀ (base : KeyMap), (base.map Prod.fst).Nodup →
      ((local_.foldl (fun acc p => acc.orInsert p.1 p.2) base).map Prod.fst).Nodup := by
  induction local_ with
  | nil => intro base h; exact h
  | cons p rest ih =>
    intro base h
    exact ih _ (nodup_orInsert base _ _ h)

/-- A fold of `orInsert`s keeps every existing binding. -/
theorem find?_foldl_orInsert_some (local_ : KeyMap) :
    ∀ (base : KeyMap) (k : String) (v : LogIndex), base.find? k = some v →
      (local_.foldl (fun acc p => acc.orInsert p.1 p.2) base).find? k = some v := by
  induction local_ with
  | nil => intro base k v h; exact h
  | cons p rest ih =>
    intro base k v h
    by_cases hk : k = p.1
    · subst hk
      exact ih _ _ _ (find?_orInsert_some base _ _ _ h)
    · exact ih _ _ _ (by rw [find?_orInsert_ne base _ _ _ hk]; exact h)

/-- Merging a local map installs exactly the absent bindings: the result
of a lookup is the base binding when present, else the local binding. -/
theorem find?_foldl_orInsert (local_ : KeyMap) :
    ∀ (base : KeyMap) (k : String), ((local_.map Prod.fst).Nodup) →
      (local_.foldl (fun acc p => acc.orInsert p.1 p.2) base).find? k
        = match base.find? k with
          | some v => some v
          | none => local_.find? k := by
  induction local_ with
  | nil =>
    intro base k _
    cases h : base.find? k <;> simp [KeyMap.find?, h]
  | cons p rest ih =>
    intro base k hnd
    obtain ⟨kp, vp⟩ := p
    simp only [List.map_cons, List.nodup_cons] at hnd
    simp only [List.foldl_cons]
    rw [ih _ _ hnd.2]
    by_cases hk : kp = k
    · subst hk
      cases hb : base.find? kp with
      | some w =>
        rw [find?_orInsert_some base _ _ _ hb]
      | none =>
        rw [find?_orInsert_none base _ _ hb]
        simp [KeyMap.find?]
    · rw [find?_orInsert_ne base _ _ _ (fun hh => hk hh.symm)]
      have hcons : KeyMap.find? ((kp, vp) :: rest) k = KeyMap.find? rest k := by
        simp [KeyMap.find?, hk]
      rw [hcons]

end Kvs

namespace Kvs

/-- A last-match fold (under any projection) keeps a defined base defined. -/
theorem foldl_lastMatch_isSome_of_base {β : Type} (recs : List (Cmd × Nat × Nat)) (k : String)
    (f : (Cmd × Nat × Nat) → β) :
    ∀ base : Option β, base.isSome = true →
      (recs.foldl (fun a r => if r.1.key = k then some (f r) else a) base).isSome = true := by
  induction recs with
  | nil => intro base h; exact h
  | cons r0 rest ih =>
    intro base h
    simp only [List.foldl_cons]
    by_cases h0 : r0.1.key = k
    · rw [if_pos h0]
      exact ih (some (f r0)) rfl
    · rw [if_neg h0]
      exact ih base h

/-- A last-match fold over records containing the key is defined. -/
theorem foldl_lastMatch_isSome {β : Type} (recs : List (Cmd × Nat × Nat)) (k : String)
    (f : (Cmd × Nat × Nat) → β) :
    ∀ base : Option β, (∃ r ∈ recs, r.1.key = k) →
      (recs.foldl (fun a r => if r.1.key = k then some (f r) else a) base).isSome = true := by
  induction recs with
  | nil =>
    intro base h
    obtain ⟨r, hr, _⟩ := h
    simp at hr
  | cons r0 rest ih =>
    intro base h
    simp only [List.foldl_cons]
    by_cases h0 : r0.1.key = k
    · rw [if_pos h0]
      exact foldl_lastMatch_isSome_of_base rest k f (some (f r0)) rfl
    · rw [if_neg h0]
      obtain ⟨r, hr, hk⟩ := h
      rcases List.mem_cons.mp hr with rfl | hmem
      · exact absurd hk h0
      · exact ih base ⟨r, hmem, hk⟩

/-- When a match exists, the fold's result does not depend on the base. -/
theorem foldl_lastMatch_base_irrel {β : Type} (recs : List (Cmd × Nat × Nat)) (k : String)
    (f : (Cmd × Nat × Nat) → β) (x : β) :
    recs.foldl (fun a r => if r.1.key = k then some (f r) else a) none = some x →
    ∀ base : Option β,
      recs.foldl (fun a r => if r.1.key = k then some (f r) else a) base = some x := by
  induction recs with
  | nil => intro h base; simp at h
  | cons r0 rest ih =>
    intro h base
    simp only [List.foldl_cons] at h ⊢
    by_cases h0 : r0.1.key = k
    · rw [if_pos h0] at h ⊢
      exact h
    · rw [if_neg h0] at h ⊢
      exact ih h base

/-- A last-match fold over records without the key keeps the base. -/
theorem foldl_lastMatch_keep {β : Type} (recs : List (Cmd × Nat × Nat)) (k : String)
    (f : (Cmd × Nat × Nat) → β) :
    ∀ base : Option β, (∀ r ∈ recs, r.1.key ≠ k) →
      recs.foldl (fun a r => if r.1.key = k then some (f r) else a) base = base := by
  induction recs with
  | nil => intro base _; rfl
  | cons r0 rest ih =>
    intro base h
    simp only [List.foldl_cons]
    rw [if_neg (h r0 (List.mem_cons_self _ _))]
    exact ih base (fun r hr => h r (List.mem_cons_of_mem _ hr))

/-! ### Lemmas about the latest-record function -/

/-- A fold over files none of which holds the key keeps the accumulator. -/
theorem filesFold_no_key (files : List (List Char)) (k : String) :
    ∀ acc, (∀ g ∈ files, ∀ kk ∈ keysOfFile g, kk ≠ k) →
      files.foldl (fileLastFold k) acc = acc := by
  induction files with
  | nil => intro acc _; rfl
  | cons g rest ih =>
    intro acc h
    simp only [List.foldl_cons]
    have hg : fileLastFold k acc g = acc := by
      unfold fileLastFold
      cases hrep : replayFile g with
      | error e => rfl
      | ok recs =>
        refine foldl_lastMatch_keep recs k (fun r => r.1) acc ?_
        intro r hr
        have hkk : r.1.key ∈ keysOfFile g := by
          rw [keysOfFile, hrep]
          exact List.mem_map.mpr ⟨r, hr, rfl⟩
        exact h g (List.mem_cons_self _ _) _ hkk
    rw [hg]
    exact ih acc (fun g' hg' => h g' (List.mem_cons_of_mem _ hg'))

/-- Folding over `before ++ f :: after`: when `f` holds the key (with a
given last record) and no later file does, the fold returns that record's
command whatever happened before. -/
theorem filesFold_split (before after : List (List Char)) (f : List Char) (k : String)
    (cmd : Cmd) (recs : List (Cmd × Nat × Nat)) (hrep : replayFile f = .ok recs)
    (hlast : recs.foldl (fun a r => if r.1.key = k then some r.1 else a) none = some cmd)
    (hafter : ∀ g ∈ after, ∀ kk ∈ keysOfFile g, kk ≠ k) :
    (before ++ f :: after).foldl (fileLastFold k) none = some cmd := by
  rw [List.foldl_append, List.foldl_cons]
  have hstep : fileLastFold k (before.foldl (fileLastFold k) none) f = some cmd := by
    unfold fileLastFold
    rw [hrep]
    exact foldl_lastMatch_base_irrel recs k (fun r => r.1) cmd hlast _
  rw [hstep]
  exact filesFold_no_key after k (some cmd) hafter

end Kvs

namespace Kvs

/-- Bridging lemma: the entry check of `Wb` as a proposition. -/
theorem entry_match_iff (s : KvStoreInner) (pr : String × LogIndex) :
    ((match readAtNamed s pr.2 with
      | some cmd => decide (cmd.key = pr.1) && decide (lastCmdFor s pr.1 = some cmd)
      | none => false) = true) ↔
    ∃ cmd, readAtNamed s pr.2 = some cmd ∧ cmd.key = pr.1 ∧ lastCmdFor s pr.1 = some cmd := by
  cases hr : readAtNamed s pr.2 with
  | none => simp
  | some cmd => simp

/-- Destructuring of the invariant checker into plain propositions. -/
theorem Wb_iff (s : KvStoreInner) :
    Wb s = true ↔
      (s.index_scanned ≤ s.wal_logs.length + 1) ∧
      ((s.key_index.map Prod.fst).Nodup) ∧
      (∀ f ∈ filesOf s, (replayFile f).isOk = true) ∧
      (∀ p, p < s.wal_logs.length + 1 →
        (p < s.index_scanned ∨
          ∀ k ∈ keysOfFile (fileAtPosD s p), (s.key_index.find? k).isSome = true)) ∧
      (∀ pr ∈ s.key_index,
        pr.2.file_index ≤ s.wal_logs.length ∧
        pr.2.offset + pr.2.len ≤ (fileAtPosD s pr.2.file_index).length ∧
        ∃ cmd, readAtNamed s pr.2 = some cmd ∧ cmd.key = pr.1 ∧
          lastCmdFor s pr.1 = some cmd) := by
  unfold Wb
  simp only [Bool.and_eq_true, decide_eq_true_eq, List.all_eq_true, List.mem_range,
    Bool.or_eq_true, entry_match_iff]
  constructor
  · rintro ⟨⟨⟨⟨h1, h2⟩, h3⟩, h4⟩, h5⟩
    exact ⟨h1, h2, h3, h4, fun pr hpr =>
      ⟨(h5 pr hpr).1.1, (h5 pr hpr).1.2, (h5 pr hpr).2⟩⟩
  · rintro ⟨h1, h2, h3, h4, h5⟩
    exact ⟨⟨⟨⟨h1, h2⟩, h3⟩, h4⟩, fun pr hpr =>
      ⟨⟨(h5 pr hpr).1, (h5 pr hpr).2.1⟩, (h5 pr hpr).2.2⟩⟩

end Kvs

namespace Kvs

/-- `fileAtPosD` depends only on the files. -/
theorem fileAtPosD_congr (s t : KvStoreInner) (p : Nat)
    (hw : s.wal_logs = t.wal_logs) (ha : s.active = t.active) :
    fileAtPosD s p = fileAtPosD t p := by
  unfold fileAtPosD
  rw [hw, ha]

/-- `readAtNamed` depends only on the files. -/
theorem readAtNamed_congr (s t : KvStoreInner) (li : LogIndex)
    (hw : s.wal_logs = t.wal_logs) (ha : s.active = t.active) :
    readAtNamed s li = readAtNamed t li := by
  unfold readAtNamed
  rw [hw, ha]

/-- `filesOf` depends only on the files. -/
theorem filesOf_congr (s t : KvStoreInner)
    (hw : s.wal_logs = t.wal_logs) (ha : s.active = t.active) :
    filesOf s = filesOf t := by
  unfold filesOf
  rw [hw, ha]

/-- `lastCmdFor` depends only on the files. -/
theorem lastCmdFor_congr (s t : KvStoreInner) (k : String)
    (hw : s.wal_logs = t.wal_logs) (ha : s.active = t.active) :
    lastCmdFor s k = lastCmdFor t k := by
  unfold lastCmdFor
  rw [filesOf_congr s t hw ha]

/-- The lazy import preserves the invariant: the imported file's keys
enter the index bound to that file's last record for each key, which — by
scan completeness for everything newer — is the key's globally latest
record; existing bindings are untouched. -/
theorem Wb_import (s s' : KvStoreInner) (hW : Wb s = true)
    (h : s.import_next_log = .ok () s') : Wb s' = true := by
  obtain ⟨hc1, hc2, hc3, hc4, hc5⟩ := (Wb_iff s).mp hW
  unfold KvStoreInner.import_next_log at h
  by_cases his : s.index_scanned = 0
  · rw [if_pos his] at h
    cases h
    exact hW
  · rw [if_neg his] at h
    simp only [] at h
    cases hfile : (if s.index_scanned - 1 = s.wal_logs.length then some s.active
        else s.wal_logs.get? (s.index_scanned - 1)) with
    | none => rw [hfile] at h; simp at h
    | some f =>
      rw [hfile] at h
      simp only [] at h
      cases hrep : replayFile f with
      | error e => rw [hrep] at h; simp at h
      | ok recs =>
        rw [hrep] at h
        simp only [] at h
        cases h
        -- notation
        have hil : s.index_scanned - 1 ≤ s.wal_logs.length := by
          by_cases hieq : s.index_scanned - 1 = s.wal_logs.length
          · omega
          · rw [if_neg hieq] at hfile
            have hlt := (List.get?_eq_some.mp hfile).1
            omega
        have hfilepos : fileAtPosD s (s.index_scanned - 1) = f := by
          unfold fileAtPosD
          by_cases hieq : s.index_scanned - 1 = s.wal_logs.length
          · rw [if_pos hieq] at hfile ⊢
            exact Option.some.inj hfile
          · rw [if_neg hieq] at hfile ⊢
            rw [List.getD_eq_getElem?_getD, ← List.get?_eq_getElem?, hfile]
            rfl
        obtain ⟨cs, hfenc, hrecseq⟩ := replayFile_ok_elim f recs hrep
        have hndlocal : (((recs.foldl (fun (m : KeyMap) r => m.insertOv r.1.key
            ⟨s.index_scanned - 1, r.2.1, r.2.2⟩) [])).map Prod.fst).Nodup :=
          nodup_foldl_insertOv recs _ [] (by simp)
        have hMfind : ∀ k,
            ((recs.foldl (fun (m : KeyMap) r => m.insertOv r.1.key
                ⟨s.index_scanned - 1, r.2.1, r.2.2⟩) []).foldl
              (fun acc p => acc.orInsert p.1 p.2) s.key_index).find? k
            = match s.key_index.find? k with
              | some v => some v
              | none => (recs.foldl (fun (m : KeyMap) r => m.insertOv r.1.key
                  ⟨s.index_scanned - 1, r.2.1, r.2.2⟩) []).find? k :=
          fun k => find?_foldl_orInsert _ s.key_index k hndlocal
        have hlocalFind : ∀ k,
            (recs.foldl (fun (m : KeyMap) r => m.insertOv r.1.key
                ⟨s.index_scanned - 1, r.2.1, r.2.2⟩) []).find? k
            = recs.foldl (fun a r => if r.1.key = k then
                some (⟨s.index_scanned - 1, r.2.1, r.2.2⟩ : LogIndex) else a) none :=
          fun k => find?_localIdx_fold recs _ [] k
        refine (Wb_iff _).mpr ⟨?_, ?_, ?_, ?_, ?_⟩
        · show s.index_scanned - 1 ≤ s.wal_logs.length + 1
          omega
        · exact nodup_foldl_orInsert _ _ hc2
        · intro g hg
          exact hc3 g hg
        · intro p hp
          have hp' : p < s.wal_logs.length + 1 := hp
          by_cases hpi : p < s.index_scanned - 1
          · exact Or.inl hpi
          · right
            intro k hk
            have hk' : k ∈ keysOfFile (fileAtPosD s p) := hk
            by_cases hpis : p < s.index_scanned
            · have hpeq : p = s.index_scanned - 1 := by omega
              subst hpeq
              rw [hfilepos, hfenc, keysOfFile_encList] at hk'
              obtain ⟨c0, hc0, rfl⟩ := List.mem_map.mp hk'
              rw [hMfind]
              cases hbase : s.key_index.find? c0.key with
              | some v => simp
              | none =>
                simp only []
                rw [hlocalFind]
                have hex : ∃ r ∈ recs, r.1.key = c0.key := by
                  subst hrecseq
                  have hmm : c0 ∈ (recsOf cs 0).map (fun r => r.1) := by
                    rw [recsOf_map_fst]
                    exact hc0
                  obtain ⟨r, hr, hr2⟩ := List.mem_map.mp hmm
                  exact ⟨r, hr, by rw [hr2]⟩
                exact foldl_lastMatch_isSome recs c0.key _ none hex
            · rcases hc4 p hp' with habs | hkeys
              · omega
              · obtain ⟨v, hv⟩ := Option.isSome_iff_exists.mp (hkeys k hk')
                rw [hMfind, hv]
                simp
        · intro pr hpr
          have hndM := nodup_foldl_orInsert
            ((recs.foldl (fun (m : KeyMap) r => m.insertOv r.1.key
              ⟨s.index_scanned - 1, r.2.1, r.2.2⟩) [])) s.key_index hc2
          have hfind := mem_find?_of_nodup _ _ _ hndM hpr
          rw [hMfind] at hfind
          cases hbase : s.key_index.find? pr.1 with
          | some v =>
            rw [hbase] at hfind
            simp only [] at hfind
            have hv : v = pr.2 := Option.some.inj hfind
            subst hv
            have hprops := hc5 pr (find?_some_mem _ _ _ hbase)
            exact ⟨hprops.1, hprops.2.1, hprops.2.2⟩
          | none =>
            rw [hbase] at hfind
            simp only [] at hfind
            rw [hlocalFind] at hfind
            have hmap := foldl_lastMatch_map recs pr.1
              (fun r => (⟨s.index_scanned - 1, r.2.1, r.2.2⟩ : LogIndex)) none
            simp only [Option.map_none'] at hmap
            rw [hmap] at hfind
            obtain ⟨r, hrec, hfr⟩ := Option.map_eq_some'.mp hfind
            rcases foldl_lastMatch_mem recs pr.1 none r hrec with ⟨hrmem, hrkey⟩ | habs
            swap
            · simp at habs
            have hpr2 : pr.2 = ⟨s.index_scanned - 1, r.2.1, r.2.2⟩ := hfr.symm
            have hrdec : r.2.1 + r.2.2 ≤ (encList cs).length ∧
                decodeFull (((encList cs).drop r.2.1).take r.2.2) = some r.1 :=
              recsOf_decode cs r (by rw [← hrecseq]; exact hrmem)
            have hcmdfold : recs.foldl
                (fun a r => if r.1.key = pr.1 then some r.1 else a) none = some r.1 := by
              have hmap2 := foldl_lastMatch_map recs pr.1 (fun r => r.1) none
              simp only [Option.map_none'] at hmap2
              rw [hmap2, hrec]
              rfl
            refine ⟨?_, ?_, r.1, ?_, hrkey, ?_⟩
            · rw [hpr2]
              exact hil
            · rw [hpr2]
              show r.2.1 + r.2.2 ≤ (fileAtPosD s (s.index_scanned - 1)).length
              rw [hfilepos, hfenc]
              exact hrdec.1
            · rw [hpr2]
              show readAtNamed s ⟨s.index_scanned - 1, r.2.1, r.2.2⟩ = some r.1
              unfold readAtNamed
              by_cases hieq : s.index_scanned - 1 = s.wal_logs.length
              · simp only [hieq, if_pos rfl]
                rw [if_pos hieq] at hfile
                have hfa : s.active = f := Option.some.inj hfile
                rw [hfa, hfenc]
                exact hrdec.2
              · simp only [if_neg hieq]
                rw [if_neg hieq] at hfile
                rw [hfile]
                simp only []
                rw [hfenc]
                exact hrdec.2
            · show lastCmdFor s pr.1 = some r.1
              unfold lastCmdFor
              by_cases hieq : s.index_scanned - 1 = s.wal_logs.length
              · rw [if_pos hieq] at hfile
                have hfa : s.active = f := Option.some.inj hfile
                have hsplit : filesOf s = s.wal_logs ++ f :: [] := by
                  rw [filesOf, hfa]
                rw [hsplit]
                exact filesFold_split s.wal_logs [] f pr.1 r.1 recs hrep hcmdfold
                  (by intro g hg; simp at hg)
              · rw [if_neg hieq] at hfile
                have hlt := (List.get?_eq_some.mp hfile).1
                have hgeti : s.wal_logs[s.index_scanned - 1] = f := by
                  have := (List.get?_eq_some.mp hfile).2
                  simpa using this
                have hwal : s.wal_logs = s.wal_logs.take (s.index_scanned - 1)
                    ++ f :: s.wal_logs.drop (s.index_scanned - 1 + 1) := by
                  conv_lhs => rw [← List.take_append_drop (s.index_scanned - 1) s.wal_logs]
                  rw [List.drop_eq_getElem_cons hlt, hgeti]
                have hsplit : filesOf s = s.wal_logs.take (s.index_scanned - 1)
                    ++ f :: (s.wal_logs.drop (s.index_scanned - 1 + 1) ++ [s.active]) := by
                  rw [filesOf]
                  conv_lhs => rw [hwal]
                  simp
                rw [hsplit]
                refine filesFold_split _ _ f pr.1 r.1 recs hrep hcmdfold ?_
                intro g hg kk hkk hkkeq
                rcases List.mem_append.mp hg with hdrop | hact
                · obtain ⟨j, hj, hgj⟩ := List.getElem_of_mem hdrop
                  have hjlen : s.index_scanned - 1 + 1 + j < s.wal_logs.length := by
                    simp only [List.length_drop] at hj
                    omega
                  have hgpos : fileAtPosD s (s.index_scanned - 1 + 1 + j) = g := by
                    unfold fileAtPosD
                    rw [if_neg (by omega)]
                    rw [List.getD_eq_getElem?_getD]
                    rw [List.getElem?_eq_getElem hjlen]
                    simp only [Option.getD_some]
                    rw [← hgj]
                    exact (List.getElem_drop ..).symm
                  rcases hc4 (s.index_scanned - 1 + 1 + j) (by omega) with habs | hkeys
                  · omega
                  · have hsome := hkeys kk (by rw [hgpos]; exact hkk)
                    rw [hkkeq, hbase] at hsome
                    simp at hsome
                · have hact' : g = s.active := by simpa using hact
                  have hapos : fileAtPosD s s.wal_logs.length = g := by
                    unfold fileAtPosD
                    rw [if_pos rfl, hact']
                  rcases hc4 s.wal_logs.length (by omega) with habs | hkeys
                  · omega
                  · have hsome := hkeys kk (by rw [hapos]; exact hkk)
                    rw [hkkeq, hbase] at hsome
                    simp at hsome

end Kvs

namespace Kvs

/-! ### Preservation of the invariant under an append -/

/-- A slice lying inside the left part of an append ignores the right part. -/
theorem slice_append_left {α : Type} (a b : List α) (o n : Nat) (h : o + n ≤ a.length) :
    ((a ++ b).drop o).take n = (a.drop o).take n := by
  rw [List.drop_append_eq_append_drop, List.take_append_eq_append_take]
  have h1 : n - (a.drop o).length = 0 := by
    simp only [List.length_drop]
    omega
  rw [h1]
  simp

/-- A file whose stream check passes streams to some record list. -/
theorem replayFile_isOk_elim (f : List Char) (h : (replayFile f).isOk = true) :
    ∃ recs, replayFile f = .ok recs := by
  cases hf : replayFile f with
  | error e =>
    cases e
    rw [hf] at h
    exact absurd h (by decide)
  | ok recs => exact ⟨recs, rfl⟩

/-- Appending one record appends its key to the file's key list. -/
theorem keysOfFile_append (f : List Char) (recs : List (Cmd × Nat × Nat)) (c : Cmd)
    (h : replayFile f = .ok recs) :
    keysOfFile (f ++ encode c) = keysOfFile f ++ [c.key] := by
  unfold keysOfFile
  rw [replayFile_append f recs c h, h]
  simp only []
  simp

/-- Appending a record for a different key does not change a file's
contribution to the latest-record scan. -/
theorem fileLastFold_append_other (k : String) (acc : Option Cmd) (f : List Char)
    (recs : List (Cmd × Nat × Nat)) (c : Cmd) (hrep : replayFile f = .ok recs)
    (hne : c.key ≠ k) :
    fileLastFold k acc (f ++ encode c) = fileLastFold k acc f := by
  unfold fileLastFold
  rw [replayFile_append f recs c hrep, hrep]
  simp only []
  rw [List.foldl_append]
  simp [hne]

/-- An overwrite-insert keeps every present key present. -/
theorem isSome_find?_insertOv (m : KeyMap) (k key : String) (v : LogIndex)
    (h : k = key ∨ (m.find? k).isSome = true) :
    ((m.insertOv key v).find? k).isSome = true := by
  by_cases hk : k = key
  · subst hk
    rw [find?_insertOv_self]
    rfl
  · rw [find?_insertOv_ne m key k v hk]
    rcases h with h | h
    · exact absurd h hk
    · exact h

/-- `appendState` leaves the log files unchanged. -/
theorem appendState_wal_logs (s : KvStoreInner) (cmd : Cmd) (key : String) :
    (appendState s cmd key).wal_logs = s.wal_logs := rfl

/-- `appendState` appends the record to the active file. -/
theorem appendState_active (s : KvStoreInner) (cmd : Cmd) (key : String) :
    (appendState s cmd key).active = s.active ++ encode cmd := rfl

/-- `appendState` leaves the scan cursor unchanged. -/
theorem appendState_index_scanned (s : KvStoreInner) (cmd : Cmd) (key : String) :
    (appendState s cmd key).index_scanned = s.index_scanned := rfl

/-- `appendState` overwrites the key's entry with the new location. -/
theorem appendState_key_index (s : KvStoreInner) (cmd : Cmd) (key : String) :
    (appendState s cmd key).key_index = s.key_index.insertOv key
      ⟨s.wal_logs.length, s.active.length, (encode cmd).length⟩ := rfl

/-- Appending a record for `key` preserves the invariant: the new entry
names the record's location at the end of the active file, which is now the
key's globally latest record; every other entry's location and latest
record are untouched. -/
theorem Wb_append (s : KvStoreInner) (cmd : Cmd) (key : String)
    (hW : Wb s = true) (hkey : cmd.key = key) :
    Wb (appendState s cmd key) = true := by
  obtain ⟨hc1, hc2, hc3, hc4, hc5⟩ := (Wb_iff s).mp hW
  obtain ⟨arecs, hA⟩ := replayFile_isOk_elim s.active
    (hc3 s.active (List.mem_append.mpr (Or.inr (List.mem_singleton.mpr rfl))))
  refine (Wb_iff _).mpr ⟨?_, ?_, ?_, ?_, ?_⟩
  · show s.index_scanned ≤ s.wal_logs.length + 1
    exact hc1
  · exact nodup_insertOv s.key_index key _ hc2
  · intro g hg
    have hg' : g ∈ s.wal_logs ++ [s.active ++ encode cmd] := hg
    rcases List.mem_append.mp hg' with hw | ha
    · exact hc3 g (List.mem_append.mpr (Or.inl hw))
    · have hga : g = s.active ++ encode cmd := by simpa using ha
      rw [hga, replayFile_append s.active arecs cmd hA]
      rfl
  · intro p hp
    have hp' : p < s.wal_logs.length + 1 := hp
    rcases hc4 p hp' with hlt | hkeys
    · exact Or.inl hlt
    · right
      intro k hk
      have hfind : k = key ∨ (s.key_index.find? k).isSome = true := by
        by_cases hpl : p = s.wal_logs.length
        · have hfp : fileAtPosD (appendState s cmd key) p = s.active ++ encode cmd := by
            unfold fileAtPosD
            rw [appendState_wal_logs, appendState_active, if_pos hpl]
          have hk' : k ∈ keysOfFile (s.active ++ encode cmd) := by
            rw [← hfp]
            exact hk
          rw [keysOfFile_append s.active arecs cmd hA] at hk'
          rcases List.mem_append.mp hk' with hold | hnew
          · refine Or.inr (hkeys k ?_)
            have hfs : fileAtPosD s p = s.active := by
              unfold fileAtPosD
              rw [if_pos hpl]
            rw [hfs]
            exact hold
          · left
            have hkc : k = cmd.key := by simpa using hnew
            rw [hkc, hkey]
        · have hfp : fileAtPosD (appendState s cmd key) p = fileAtPosD s p := by
            unfold fileAtPosD
            rw [appendState_wal_logs, appendState_active, if_neg hpl, if_neg hpl]
          refine Or.inr (hkeys k ?_)
          rw [← hfp]
          exact hk
      exact isSome_find?_insertOv s.key_index k key _ hfind
  · intro pr hpr
    have hpr' : pr ∈ s.key_index.insertOv key
        ⟨s.wal_logs.length, s.active.length, (encode cmd).length⟩ := hpr
    by_cases hq : pr.1 = key
    · have hnd' := nodup_insertOv s.key_index key
        ⟨s.wal_logs.length, s.active.length, (encode cmd).length⟩ hc2
      have hfind := mem_find?_of_nodup _ pr.1 pr.2 hnd' hpr'
      rw [hq, find?_insertOv_self] at hfind
      have hv : pr.2 = ⟨s.wal_logs.length, s.active.length, (encode cmd).length⟩ :=
        (Option.some.inj hfind).symm
      refine ⟨?_, ?_, cmd, ?_, ?_, ?_⟩
      · rw [hv]
        show s.wal_logs.length ≤ s.wal_logs.length
        exact Nat.le_refl _
      · rw [hv]
        show s.active.length + (encode cmd).length ≤
          (fileAtPosD (appendState s cmd key) s.wal_logs.length).length
        have hx : fileAtPosD (appendState s cmd key) s.wal_logs.length
            = s.active ++ encode cmd := by
          unfold fileAtPosD
          rw [appendState_wal_logs, appendState_active, if_pos rfl]
        rw [hx]
        simp [List.length_append]
      · rw [hv]
        unfold readAtNamed
        rw [appendState_wal_logs, appendState_active]
        rw [if_pos rfl]
        simp only []
        rw [List.drop_left, List.take_length]
        exact decodeFull_encode cmd
      · rw [hkey, hq]
      · rw [hq]
        show (filesOf (appendState s cmd key)).foldl (fileLastFold key) none = some cmd
        have hfiles : filesOf (appendState s cmd key)
            = s.wal_logs ++ (s.active ++ encode cmd) :: [] := rfl
        rw [hfiles]
        refine filesFold_split s.wal_logs [] (s.active ++ encode cmd) key cmd
          (arecs ++ [(cmd, s.active.length, (encode cmd).length)])
          (replayFile_append s.active arecs cmd hA) ?_ ?_
        · rw [List.foldl_append]
          simp [hkey]
        · intro g hg
          simp at hg
    · have hmem : pr ∈ s.key_index := by
        rcases mem_insertOv s.key_index key _ pr hpr' with he | hm
        · exact absurd (show pr.1 = key by rw [he]) hq
        · exact hm
      obtain ⟨hb1, hb2, cmd', hread, hckey, hlast⟩ := hc5 pr hmem
      have hcne : cmd.key ≠ pr.1 := by
        rw [hkey]
        exact fun hh => hq hh.symm
      refine ⟨?_, ?_, cmd', ?_, hckey, ?_⟩
      · exact hb1
      · by_cases hfi : pr.2.file_index = s.wal_logs.length
        · have hx : fileAtPosD (appendState s cmd key) pr.2.file_index
              = s.active ++ encode cmd := by
            unfold fileAtPosD
            rw [appendState_wal_logs, appendState_active, if_pos hfi]
          have hy : fileAtPosD s pr.2.file_index = s.active := by
            unfold fileAtPosD
            rw [if_pos hfi]
          rw [hy] at hb2
          rw [hx, List.length_append]
          omega
        · have hx : fileAtPosD (appendState s cmd key) pr.2.file_index
              = fileAtPosD s pr.2.file_index := by
            unfold fileAtPosD
            rw [appendState_wal_logs, appendState_active, if_neg hfi, if_neg hfi]
          rw [hx]
          exact hb2
      · unfold readAtNamed at hread ⊢
        rw [appendState_wal_logs, appendState_active]
        by_cases hfi : pr.2.file_index = s.wal_logs.length
        · rw [if_pos hfi] at hread ⊢
          have hy : fileAtPosD s pr.2.file_index = s.active := by
            unfold fileAtPosD
            rw [if_pos hfi]
          rw [hy] at hb2
          rw [slice_append_left s.active (encode cmd) pr.2.offset pr.2.len hb2]
          exact hread
        · rw [if_neg hfi] at hread ⊢
          exact hread
      · have hlcT : lastCmdFor (appendState s cmd key) pr.1 = lastCmdFor s pr.1 := by
          show (filesOf (appendState s cmd key)).foldl (fileLastFold pr.1) none
              = (filesOf s).foldl (fileLastFold pr.1) none
          have hf1 : filesOf (appendState s cmd key)
              = s.wal_logs ++ [s.active ++ encode cmd] := rfl
          have hf2 : filesOf s = s.wal_logs ++ [s.active] := rfl
          rw [hf1, hf2, List.foldl_append, List.foldl_append]
          simp only [List.foldl_cons, List.foldl_nil]
          exact fileLastFold_append_other pr.1 _ s.active arecs cmd hA hcne
        rw [hlcT]
        exact hlast

end Kvs

namespace Kvs

/-- A successful lazy import changes only the index and the cursor: the
files and the redundancy counter are untouched. -/
theorem import_frames (s s' : KvStoreInner) (h : s.import_next_log = .ok () s') :
    s'.active = s.active ∧ s'.wal_logs = s.wal_logs ∧
    s'.active_redundant = s.active_redundant := by
  unfold KvStoreInner.import_next_log at h
  by_cases his : s.index_scanned = 0
  · rw [if_pos his] at h
    cases h
    exact ⟨rfl, rfl, rfl⟩
  · rw [if_neg his] at h
    simp only [] at h
    cases hfile : (if s.index_scanned - 1 = s.wal_logs.length then some s.active
        else s.wal_logs.get? (s.index_scanned - 1)) with
    | none =>
      rw [hfile] at h
      simp at h
    | some f =>
      rw [hfile] at h
      simp only [] at h
      cases hrep : replayFile f with
      | error e =>
        rw [hrep] at h
        simp at h
      | ok recs =>
        rw [hrep] at h
        simp only [] at h
        cases h
        exact ⟨rfl, rfl, rfl⟩

/-- The miss loop of `get` preserves the invariant: it only ever imports. -/
theorem Wb_getAux : ∀ (fuel : Nat) (s s' : KvStoreInner) (key : String) (v : Option String),
    Wb s = true → KvStoreInner.getAux fuel s key = .ok v s' → Wb s' = true := by
  intro fuel
  induction fuel with
  | zero =>
    intro s s' key v hW h
    simp only [KvStoreInner.getAux] at h
    cases h
    exact hW
  | succ fuel ih =>
    intro s s' key v hW h
    simp only [KvStoreInner.getAux] at h
    by_cases his : s.index_scanned = 0
    · rw [if_pos his] at h
      cases h
      exact hW
    · rw [if_neg his] at h
      cases himp : s.import_next_log with
      | panic =>
        rw [himp] at h
        simp at h
      | err e s1 =>
        rw [himp] at h
        simp at h
      | ok u s1 =>
        rw [himp] at h
        simp only [] at h
        cases u
        have hW1 : Wb s1 = true := Wb_import s s1 hW himp
        cases hfind : s1.key_index.find? key with
        | some li =>
          rw [hfind] at h
          simp only [] at h
          cases hread : s1.read_from_log li with
          | panic =>
            rw [hread] at h
            simp at h
          | err e =>
            rw [hread] at h
            simp at h
          | ok c =>
            rw [hread] at h
            cases c with
            | Set k0 v0 =>
              simp only [] at h
              cases h
              exact hW1
            | Rm k0 =>
              simp only [] at h
              cases h
              exact hW1
        | none =>
          rw [hfind] at h
          exact ih s1 s' key v hW1 h

/-- The miss loop of `remove` preserves the invariant below the compaction
triggers: it imports lazily and, at most once, appends a tombstone. -/
theorem Wb_removeAux : ∀ (fuel : Nat) (s s' : KvStoreInner) (key : String),
    Wb s = true → s.active_redundant < COMPACTION_THRESHOLD →
    s.active.length ≤ 10 * FILE_SIZE_LIMIT →
    KvStoreInner.removeAux fuel s key = .ok () s' → Wb s' = true := by
  intro fuel
  induction fuel with
  | zero =>
    intro s s' key _ _ _ h
    simp [KvStoreInner.removeAux] at h
  | succ fuel ih =>
    intro s s' key hW hred hoff h
    simp only [KvStoreInner.removeAux] at h
    by_cases his : s.index_scanned = 0
    · rw [if_pos his] at h
      simp at h
    · rw [if_neg his] at h
      cases himp : s.import_next_log with
      | panic =>
        rw [himp] at h
        simp at h
      | err e s1 =>
        rw [himp] at h
        simp at h
      | ok u s1 =>
        rw [himp] at h
        simp only [] at h
        cases u
        have hW1 : Wb s1 = true := Wb_import s s1 hW himp
        obtain ⟨hact, hwal, hredu⟩ := import_frames s s1 himp
        cases hfind : s1.key_index.find? key with
        | some li =>
          rw [hfind] at h
          simp only [] at h
          cases hread : s1.read_from_log li with
          | panic =>
            rw [hread] at h
            simp at h
          | err e =>
            rw [hread] at h
            simp at h
          | ok c =>
            rw [hread] at h
            cases c with
            | Rm k0 =>
              simp at h
            | Set k0 v0 =>
              simp only [] at h
              rw [append_log_no_compact s1 (.Rm key) key
                (by rw [hredu]; exact hred) (by rw [hact]; exact hoff)] at h
              cases h
              exact Wb_append s1 (.Rm key) key hW1 rfl
        | none =>
          rw [hfind] at h
          exact ih s1 s' key hW1 (by rw [hredu]; exact hred) (by rw [hact]; exact hoff) h

end Kvs

namespace Kvs

/-- C6, amended.  The specification's invariant — every index entry points
at the latest `Set` record of its key — is refuted by
`c6_tombstone_in_index` (a successful `remove` leaves the key in the index
pointing at its tombstone).  The repaired invariant `Wb` (entries point at
the key's latest record, `Set` or tombstone, at an in-bounds location, with
all scanned keys present) is preserved by every successful engine operation
that stays below the compaction triggers: `set`, `remove`, `get` and the
lazy import. -/
theorem c6_index_invariant_preserved (s s' : KvStoreInner)
    (hW : Wb s = true) (hstep : Step s s') : Wb s' = true := by
  cases hstep with
  | set k v hred hoff h =>
    unfold KvStoreInner.set at h
    rw [append_log_no_compact s (.Set k v) k hred hoff] at h
    cases h
    exact Wb_append s (.Set k v) k hW rfl
  | rm k hred hoff h =>
    unfold KvStoreInner.remove at h
    by_cases hf : (s.key_index.find? k).isSome = true
    · rw [if_pos hf] at h
      rw [append_log_no_compact s (.Rm k) k hred hoff] at h
      cases h
      exact Wb_append s (.Rm k) k hW rfl
    · rw [if_neg hf] at h
      exact Wb_removeAux s.index_scanned s s' k hW hred hoff h
  | get k v h =>
    unfold KvStoreInner.get at h
    cases hfind : s.key_index.find? k with
    | some li =>
      rw [hfind] at h
      simp only [] at h
      cases hread : s.read_from_log li with
      | panic =>
        rw [hread] at h
        simp at h
      | err e =>
        rw [hread] at h
        simp at h
      | ok c =>
        rw [hread] at h
        cases c with
        | Set k0 v0 =>
          simp only [] at h
          cases h
          exact hW
        | Rm k0 =>
          simp only [] at h
          cases h
          exact hW
    | none =>
      rw [hfind] at h
      exact Wb_getAux s.index_scanned s s' k v hW h
  | imp h =>
    exact Wb_import s s' hW h

/-- Witness: a fresh store satisfies the invariant and keeps it across a
first `set`. -/
theorem c6_index_invariant_preserved_witness :
    Wb { key_index := [("a", ⟨0, 0, 17⟩)], index_scanned := 1,
         active := encode (.Set "a" "1"), wal_logs := [],
         active_redundant := 0 } = true :=
  c6_index_invariant_preserved (KvStoreInner.openStore [] none) _ (by decide)
    (Step.set _ _ "a" "1" (by decide) (by decide) (by decide))

end Kvs
